import Mathlib

/-!
Verification of the maid repository's core components against its
natural-language specification.

Strings are modelled as `List Char`.  Each definition mirrors the
corresponding TypeScript function from the source; network and SDK
effects are abstracted as explicit environment inputs.
-/

set_option maxHeartbeats 1000000

namespace Maid

/-- The open-tag literal `<command>` from `createCommandTagStreamParser`. -/
def openTag : List Char := "<command>".toList

/-- The close-tag literal `</command>` from `createCommandTagStreamParser`. -/
def closeTag : List Char := "</command>".toList

/-- JavaScript whitespace recognised by `String.trim` (common ASCII subset). -/
def isJsWhitespace (c : Char) : Bool :=
  c = ' ' || c = '\t' || c = '\n' || c = '\r' || c = '\x0b' || c = '\x0c'

/-- Model of JavaScript `String.prototype.trim`. -/
def jsTrim (s : List Char) : List Char :=
  ((s.dropWhile isJsWhitespace).reverse.dropWhile isJsWhitespace).reverse

/-- Model of JavaScript `String.prototype.indexOf` restricted to a
nonempty needle: index of the first occurrence of `token`, if any. -/
def firstIdx? (token : List Char) : List Char → Option Nat
  | [] => if token.isPrefixOf [] then some 0 else none
  | c :: rest =>
    if token.isPrefixOf (c :: rest) then some 0
    else (firstIdx? token rest).map (· + 1)

/-- Countdown search mirroring the `for (let len = max; len > 0; len--)`
loop of `longestSuffixPrefixLen` in `createCommandTagStreamParser`. -/
def suffixMatchLen (v t : List Char) : Nat → Nat
  | 0 => 0
  | n + 1 =>
    if v.drop (v.length - (n + 1)) = t.take (n + 1) then n + 1
    else suffixMatchLen v t n

/-- `longestSuffixPrefixLen` from `createCommandTagStreamParser`: the
largest `len ≤ min v.length (t.length - 1)` such that the final `len`
characters of `v` equal the first `len` characters of `t`. -/
def longestSuffixPrefixLen (v t : List Char) : Nat :=
  suffixMatchLen v t (min v.length (t.length - 1))

/-- Mutable state captured by the closures of `createCommandTagStreamParser`. -/
structure ParserState where
  pending : List Char
  inCommand : Bool
  commandBuffer : List Char
  deriving Repr, DecidableEq

/-- The `while (pending.length > 0)` loop body of `feed`, with explicit
fuel (each iteration that does not break consumes a full tag, so
`pending.length` fuel always suffices; see `feedGo_fuel_irrelevant`).
Returns the final state, the visible output and the extracted commands. -/
def feedGo : Nat → ParserState → ParserState × List Char × List (List Char)
  | 0, st => (st, [], [])
  | fuel + 1, st =>
    if st.inCommand then
      match firstIdx? closeTag st.pending with
      | none =>
        let keepLen := longestSuffixPrefixLen st.pending closeTag
        let flushLen := st.pending.length - keepLen
        let part := st.pending.take flushLen
        (⟨st.pending.drop flushLen, true, st.commandBuffer ++ part⟩, part, [])
      | some closeIdx =>
        let part := st.pending.take closeIdx
        let cmd := jsTrim (st.commandBuffer ++ part)
        let rest := feedGo fuel ⟨st.pending.drop (closeIdx + closeTag.length), false, []⟩
        (rest.1, part ++ rest.2.1, (if cmd = [] then [] else [cmd]) ++ rest.2.2)
    else
      match firstIdx? openTag st.pending with
      | none =>
        let keepLen := longestSuffixPrefixLen st.pending openTag
        let flushLen := st.pending.length - keepLen
        (⟨st.pending.drop flushLen, false, st.commandBuffer⟩, st.pending.take flushLen, [])
      | some idx =>
        let rest := feedGo fuel ⟨st.pending.drop (idx + openTag.length), true, []⟩
        (rest.1, st.pending.take idx ++ rest.2.1, rest.2.2)

/-- `feed(chunk)`: append the chunk to `pending` and run the loop. -/
def feed (st : ParserState) (chunk : List Char) :
    ParserState × List Char × List (List Char) :=
  feedGo (st.pending.length + chunk.length + 1)
    ⟨st.pending ++ chunk, st.inCommand, st.commandBuffer⟩

/-- `flush()`: emit leftover pending text; if a tag was left open, re-emit
the open literal plus the accumulated buffer plus the pending text. -/
def flush (st : ParserState) : ParserState × List Char :=
  if st.inCommand then
    (⟨[], false, []⟩, openTag ++ st.commandBuffer ++ st.pending)
  else
    (⟨[], st.inCommand, st.commandBuffer⟩, st.pending)

/-- State of a freshly created parser. -/
def initState : ParserState := ⟨[], false, []⟩

/-- Feed a list of chunks in order, concatenating outputs. -/
def feedAll (st : ParserState) : List (List Char) →
    ParserState × List Char × List (List Char)
  | [] => (st, [], [])
  | c :: cs =>
    let r := feed st c
    let rest := feedAll r.1 cs
    (rest.1, r.2.1 ++ rest.2.1, r.2.2 ++ rest.2.2)

/-- Feed all chunks to a fresh parser, then flush once: total visible
output (flush output included) and the full ordered command list. -/
def runParser (chunks : List (List Char)) : List Char × List (List Char) :=
  let r := feedAll initState chunks
  ((r.2.1 ++ (flush r.1).2), r.2.2)

/-! ### Generic list facts used throughout -/

theorem isPrefixOf_eq_pre (l₁ l₂ : List Char) : l₁.isPrefixOf l₂ = true ↔ l₁ <+: l₂ := by
  simp

theorem pre_of_pre_append_le {t x b : List Char} (h : t <+: x ++ b)
    (hle : t.length ≤ x.length) : t <+: x := by
  rw [List.prefix_iff_eq_take] at h
  exact List.prefix_iff_eq_take.2 (h.trans (List.take_append_of_le_length hle))

theorem pre_rev_of_append {t x b : List Char} (h : t <+: x ++ b)
    (hle : x.length ≤ t.length) : x <+: t := by
  rw [List.prefix_iff_eq_take] at h
  refine List.prefix_iff_eq_take.2 ?_
  have hx : t.take x.length = x := by
    rw [h, List.take_take, Nat.min_eq_left hle,
      List.take_append_of_le_length (Nat.le_refl _), List.take_length]
  exact hx.symm

theorem suffix_drop_eq {p T : List Char} (h : p <:+ T) {l : Nat} (hl : l ≤ p.length) :
    T.drop (T.length - l) = p.drop (p.length - l) := by
  obtain ⟨x, rfl⟩ := h
  have hxl : x.length + p.length - l = x.length + (p.length - l) := by omega
  rw [List.length_append, hxl, List.drop_append]

/-! ### Facts about `firstIdx?` (the model of `String.indexOf`) -/

theorem firstIdx_some_pre {t s : List Char} {i : Nat}
    (h : firstIdx? t s = some i) : t <+: s.drop i := by
  induction s generalizing i with
  | nil =>
    unfold firstIdx? at h
    split at h
    · rename_i hp
      obtain rfl : (0 : Nat) = i := by simpa using h
      exact (isPrefixOf_eq_pre _ _).1 hp
    · exact absurd h (by simp)
  | cons c rest ih =>
    unfold firstIdx? at h
    split at h
    · rename_i hp
      obtain rfl : (0 : Nat) = i := by simpa using h
      exact (isPrefixOf_eq_pre _ _).1 hp
    · rename_i hp
      obtain ⟨j, hj, rfl⟩ := Option.map_eq_some'.1 h
      simpa using ih hj

theorem firstIdx_le_length {t s : List Char} {i : Nat}
    (h : firstIdx? t s = some i) : i ≤ s.length := by
  induction s generalizing i with
  | nil =>
    unfold firstIdx? at h
    split at h
    · obtain rfl : (0 : Nat) = i := by simpa using h
      omega
    · exact absurd h (by simp)
  | cons c rest ih =>
    unfold firstIdx? at h
    split at h
    · obtain rfl : (0 : Nat) = i := by simpa using h
      omega
    · obtain ⟨j, hj, rfl⟩ := Option.map_eq_some'.1 h
      have := ih hj
      simp only [List.length_cons]
      omega

theorem firstIdx_bound {t s : List Char} {i : Nat}
    (h : firstIdx? t s = some i) : i + t.length ≤ s.length := by
  have hpre := firstIdx_some_pre h
  have hlen := hpre.length_le
  have hds : (s.drop i).length = s.length - i := by simp
  have := firstIdx_le_length h
  omega

theorem firstIdx_none_not_pre {t s : List Char}
    (h : firstIdx? t s = none) (j : Nat) : ¬ t <+: s.drop j := by
  induction s generalizing j with
  | nil =>
    unfold firstIdx? at h
    split at h
    · exact absurd h (by simp)
    · rename_i hp
      intro hc
      rw [List.drop_nil] at hc
      exact hp ((isPrefixOf_eq_pre _ _).2 (by simpa using hc))
  | cons c rest ih =>
    unfold firstIdx? at h
    split at h
    · exact absurd h (by simp)
    · rename_i hp
      have hr : firstIdx? t rest = none := by
        cases hfi : firstIdx? t rest with
        | none => rfl
        | some k => rw [hfi] at h; simp at h
      intro hc
      cases j with
      | zero =>
        rw [List.drop_zero] at hc
        exact hp ((isPrefixOf_eq_pre _ _).2 hc)
      | succ j => exact ih hr j (by simpa using hc)

theorem firstIdx_some_min {t s : List Char} {i : Nat}
    (h : firstIdx? t s = some i) {j : Nat} (hj : j < i) : ¬ t <+: s.drop j := by
  induction s generalizing i j with
  | nil =>
    unfold firstIdx? at h
    split at h
    · obtain rfl : (0 : Nat) = i := by simpa using h
      omega
    · exact absurd h (by simp)
  | cons c rest ih =>
    unfold firstIdx? at h
    split at h
    · obtain rfl : (0 : Nat) = i := by simpa using h
      omega
    · rename_i hp
      obtain ⟨k, hk, rfl⟩ := Option.map_eq_some'.1 h
      intro hc
      cases j with
      | zero =>
        rw [List.drop_zero] at hc
        exact hp ((isPrefixOf_eq_pre _ _).2 hc)
      | succ j => exact ih hk (by omega : j < k) (by simpa using hc)

theorem firstIdx_of_pre {t w : List Char} (h : t <+: w) : firstIdx? t w = some 0 := by
  cases w with
  | nil =>
    have : t = [] := List.prefix_nil.1 h
    subst this
    simp [firstIdx?, List.isPrefixOf]
  | cons c rest =>
    unfold firstIdx?
    rw [if_pos ((isPrefixOf_eq_pre _ _).2 h)]

theorem firstIdx_eq_some_of {t s : List Char} {i : Nat} (hp : t <+: s.drop i)
    (hmin : ∀ j, j < i → ¬ t <+: s.drop j) : firstIdx? t s = some i := by
  induction s generalizing i with
  | nil =>
    cases i with
    | zero =>
      rw [List.drop_nil] at hp
      have : t = [] := List.prefix_nil.1 hp
      subst this
      simp [firstIdx?, List.isPrefixOf]
    | succ i =>
      rw [List.drop_nil] at hp
      exact absurd (by simpa using hp : t <+: ([] : List Char).drop 0)
        (hmin 0 (by omega))
  | cons c rest ih =>
    cases i with
    | zero =>
      rw [List.drop_zero] at hp
      unfold firstIdx?
      rw [if_pos ((isPrefixOf_eq_pre _ _).2 hp)]
    | succ i =>
      unfold firstIdx?
      rw [if_neg (fun hc => hmin 0 (by omega)
        (by simpa using (isPrefixOf_eq_pre _ _).1 hc))]
      rw [ih (by simpa using hp)
        (fun j hj hc => hmin (j + 1) (by omega) (by simpa using hc))]
      rfl

theorem firstIdx_cons_not {t s : List Char} {c : Char} (hnp : ¬ t <+: c :: s) :
    firstIdx? t (c :: s) = (firstIdx? t s).map (· + 1) := by
  simp only [firstIdx?]
  rw [if_neg (fun hc => hnp ((isPrefixOf_eq_pre _ _).1 hc))]

theorem firstIdx_shift {t A z : List Char}
    (h : ∀ j, j < A.length → ¬ t <+: (A ++ z).drop j) :
    firstIdx? t (A ++ z) = (firstIdx? t z).map (· + A.length) := by
  induction A with
  | nil =>
    cases hfi : firstIdx? t z
    all_goals simp [hfi]
  | cons c A ih =>
    have hstep := firstIdx_cons_not (t := t) (s := A ++ z)
      (fun hc => h 0 (by simp) (by simpa using hc))
    have hih := ih (fun j hj hc => h (j + 1) (by simp; omega) (by simpa using hc))
    rw [List.cons_append, hstep, hih]
    cases hfi : firstIdx? t z <;> simp [hfi] <;> omega

theorem firstIdx_append_some {t p : List Char} {i : Nat}
    (h : firstIdx? t p = some i) (b : List Char) :
    firstIdx? t (p ++ b) = some i := by
  have hbound := firstIdx_bound h
  have hle := firstIdx_le_length h
  refine firstIdx_eq_some_of ?_ ?_
  · rw [List.drop_append_of_le_length hle]
    exact (firstIdx_some_pre h).trans (List.prefix_append _ _)
  · intro j hj hc
    rw [List.drop_append_of_le_length (by omega)] at hc
    have hjt : t.length ≤ (p.drop j).length := by simp; omega
    exact firstIdx_some_min h hj (pre_of_pre_append_le hc hjt)

/-! ### Facts about `longestSuffixPrefixLen` -/

theorem suffixMatchLen_le (v t : List Char) (n : Nat) : suffixMatchLen v t n ≤ n := by
  induction n with
  | zero => simp [suffixMatchLen]
  | succ n ih =>
    unfold suffixMatchLen
    split
    · omega
    · omega

theorem suffixMatchLen_spec (v t : List Char) (n : Nat)
    (h : 0 < suffixMatchLen v t n) :
    v.drop (v.length - suffixMatchLen v t n) =
      t.take (suffixMatchLen v t n) := by
  induction n with
  | zero => simp [suffixMatchLen] at h
  | succ n ih =>
    by_cases hcond : v.drop (v.length - (n + 1)) = t.take (n + 1)
    · have heq : suffixMatchLen v t (n + 1) = n + 1 := by
        simp only [suffixMatchLen]
        rw [if_pos hcond]
      rw [heq]
      exact hcond
    · have heq : suffixMatchLen v t (n + 1) = suffixMatchLen v t n := by
        simp only [suffixMatchLen]
        rw [if_neg hcond]
      rw [heq] at h ⊢
      exact ih h

theorem suffixMatchLen_maximal (v t : List Char) (n : Nat) {k : Nat}
    (hk : k ≤ n) (hcond : v.drop (v.length - k) = t.take k) :
    k ≤ suffixMatchLen v t n := by
  induction n with
  | zero => omega
  | succ n ih =>
    by_cases hcond2 : v.drop (v.length - (n + 1)) = t.take (n + 1)
    · have heq : suffixMatchLen v t (n + 1) = n + 1 := by
        simp only [suffixMatchLen]
        rw [if_pos hcond2]
      omega
    · have heq : suffixMatchLen v t (n + 1) = suffixMatchLen v t n := by
        simp only [suffixMatchLen]
        rw [if_neg hcond2]
      rw [heq]
      rcases Nat.lt_or_ge k (n + 1) with hlt | hge
      · exact ih (by omega)
      · have hkeq : k = n + 1 := by omega
        subst hkeq
        exact absurd hcond hcond2

theorem lsp_le_min (v t : List Char) :
    longestSuffixPrefixLen v t ≤ min v.length (t.length - 1) :=
  suffixMatchLen_le ..

theorem lsp_drop_eq_take (v t : List Char) :
    v.drop (v.length - longestSuffixPrefixLen v t) =
      t.take (longestSuffixPrefixLen v t) := by
  rcases Nat.eq_zero_or_pos (longestSuffixPrefixLen v t) with h0 | hpos
  · rw [h0]
    simp
  · exact suffixMatchLen_spec v t _ hpos

theorem lsp_maximal (v t : List Char) {k : Nat} (hk1 : k ≤ v.length)
    (hk2 : k < t.length) (hcond : v.drop (v.length - k) = t.take k) :
    k ≤ longestSuffixPrefixLen v t :=
  suffixMatchLen_maximal v t _ (by omega) hcond

theorem suffix_append_right {x p : List Char} (h : x <:+ p) (b : List Char) :
    x ++ b <:+ p ++ b := by
  obtain ⟨a, rfl⟩ := h
  exact ⟨a, (List.append_assoc ..).symm⟩

theorem lsp_extend (p b t : List Char) (ht : 0 < t.length) :
    longestSuffixPrefixLen (p ++ b) t =
      longestSuffixPrefixLen (p.drop (p.length - longestSuffixPrefixLen p t) ++ b) t := by
  set K := longestSuffixPrefixLen p t with hK
  set rp := p.drop (p.length - K) with hrp
  have hKle : K ≤ min p.length (t.length - 1) := lsp_le_min p t
  have hrple : rp.length = K := by
    rw [hrp]
    simp
    omega
  have hsuf : rp ++ b <:+ p ++ b := suffix_append_right (List.drop_suffix _ _) b
  -- suffixes of length m ≤ |rp ++ b| agree between the two lists
  have hagree : ∀ m, m ≤ (rp ++ b).length →
      (p ++ b).drop ((p ++ b).length - m) = (rp ++ b).drop ((rp ++ b).length - m) :=
    fun m hm => suffix_drop_eq hsuf hm
  apply Nat.le_antisymm
  · -- lsp (p ++ b) ≤ lsp (rp ++ b)
    set M := longestSuffixPrefixLen (p ++ b) t with hM
    have hMle : M ≤ min (p ++ b).length (t.length - 1) := lsp_le_min (p ++ b) t
    have hMspec := lsp_drop_eq_take (p ++ b) t
    rcases Nat.lt_or_ge (rp ++ b).length M with hMrb | hMrb
    case inr =>
      refine lsp_maximal _ _ hMrb (by omega) ?_
      rw [← hagree M hMrb]
      exact hMspec
    case inl =>
      -- impossible: it would beat the maximality of K in p
      exfalso
      have hb : b.length < M := by
        simp at hMrb
        omega
      set k := M - b.length with hk
      have hkK : K < k := by
        simp at hMrb
        omega
      have hkp : k ≤ p.length := by
        simp at hMle
        omega
      have hsplit : (p ++ b).length - M = p.length - k := by
        simp
        omega
      rw [hsplit, List.drop_append_of_le_length (by omega)] at hMspec
      have hdl : (p.drop (p.length - k)).length = k := by
        simp
        omega
      have htakeL : (p.drop (p.length - k) ++ b).take k = p.drop (p.length - k) := by
        rw [List.take_append_of_le_length (by omega)]
        exact List.take_of_length_le (by omega)
      have htakeR : (t.take M).take k = t.take k := by
        rw [List.take_take, Nat.min_eq_left (by omega)]
      have hfin : p.drop (p.length - k) = t.take k := by
        rw [← htakeL, hMspec, htakeR]
      have := lsp_maximal p t (k := k) hkp (by omega) hfin
      omega
  · -- lsp (rp ++ b) ≤ lsp (p ++ b)
    set m := longestSuffixPrefixLen (rp ++ b) t with hm
    have hmle : m ≤ min (rp ++ b).length (t.length - 1) := lsp_le_min (rp ++ b) t
    have hmspec := lsp_drop_eq_take (rp ++ b) t
    refine lsp_maximal _ _ (by simp at hmle ⊢; omega) (by omega) ?_
    rw [hagree m (by omega)]
    exact hmspec

/-! ### Step equations and fuel irrelevance for `feedGo` -/

theorem openTag_length : openTag.length = 9 := rfl

theorem closeTag_length : closeTag.length = 10 := rfl

theorem feedGo_none_open {fuel : Nat} {st : ParserState} (hic : st.inCommand = false)
    (hfi : firstIdx? openTag st.pending = none) :
    feedGo (fuel + 1) st =
      (⟨st.pending.drop
          (st.pending.length - longestSuffixPrefixLen st.pending openTag),
        false, st.commandBuffer⟩,
       st.pending.take
          (st.pending.length - longestSuffixPrefixLen st.pending openTag),
       []) := by
  simp only [feedGo, hic, hfi]
  rw [if_neg Bool.false_ne_true]

theorem feedGo_some_open {fuel : Nat} {st : ParserState} (hic : st.inCommand = false)
    {i : Nat} (hfi : firstIdx? openTag st.pending = some i) :
    feedGo (fuel + 1) st =
      ((feedGo fuel ⟨st.pending.drop (i + openTag.length), true, []⟩).1,
       st.pending.take i ++
         (feedGo fuel ⟨st.pending.drop (i + openTag.length), true, []⟩).2.1,
       (feedGo fuel ⟨st.pending.drop (i + openTag.length), true, []⟩).2.2) := by
  simp only [feedGo, hic, hfi]
  rw [if_neg Bool.false_ne_true]

theorem feedGo_none_close {fuel : Nat} {st : ParserState} (hic : st.inCommand = true)
    (hfi : firstIdx? closeTag st.pending = none) :
    feedGo (fuel + 1) st =
      (⟨st.pending.drop
          (st.pending.length - longestSuffixPrefixLen st.pending closeTag),
        true,
        st.commandBuffer ++ st.pending.take
          (st.pending.length - longestSuffixPrefixLen st.pending closeTag)⟩,
       st.pending.take
          (st.pending.length - longestSuffixPrefixLen st.pending closeTag),
       []) := by
  simp only [feedGo, hic, hfi]
  rw [if_pos trivial]

theorem feedGo_some_close {fuel : Nat} {st : ParserState} (hic : st.inCommand = true)
    {i : Nat} (hfi : firstIdx? closeTag st.pending = some i) :
    feedGo (fuel + 1) st =
      ((feedGo fuel ⟨st.pending.drop (i + closeTag.length), false, []⟩).1,
       st.pending.take i ++
         (feedGo fuel ⟨st.pending.drop (i + closeTag.length), false, []⟩).2.1,
       (if jsTrim (st.commandBuffer ++ st.pending.take i) = [] then []
         else [jsTrim (st.commandBuffer ++ st.pending.take i)]) ++
         (feedGo fuel ⟨st.pending.drop (i + closeTag.length), false, []⟩).2.2) := by
  simp only [feedGo, hic, hfi]
  rw [if_pos trivial]

theorem feedGo_congr : ∀ f1 f2 : Nat, ∀ st : ParserState,
    st.pending.length < f1 → st.pending.length < f2 →
    feedGo f1 st = feedGo f2 st := by
  intro f1
  induction f1 with
  | zero => intro f2 st h1 h2; omega
  | succ g ih =>
    intro f2 st h1 h2
    cases f2 with
    | zero => omega
    | succ f
    =>
    cases hic : st.inCommand with
    | true =>
      cases hfi : firstIdx? closeTag st.pending with
      | none => rw [feedGo_none_close hic hfi, feedGo_none_close hic hfi]
      | some i =>
        have hb := firstIdx_bound hfi
        rw [closeTag_length] at hb
        have hlen : (st.pending.drop (i + closeTag.length)).length < g := by
          simp [closeTag_length]
          omega
        have hlen2 : (st.pending.drop (i + closeTag.length)).length < f := by
          simp [closeTag_length]
          omega
        rw [feedGo_some_close hic hfi, feedGo_some_close hic hfi,
          ih f ⟨st.pending.drop (i + closeTag.length), false, []⟩ hlen hlen2]
    | false =>
      cases hfi : firstIdx? openTag st.pending with
      | none => rw [feedGo_none_open hic hfi, feedGo_none_open hic hfi]
      | some i =>
        have hb := firstIdx_bound hfi
        rw [openTag_length] at hb
        have hlen : (st.pending.drop (i + openTag.length)).length < g := by
          simp [openTag_length]
          omega
        have hlen2 : (st.pending.drop (i + openTag.length)).length < f := by
          simp [openTag_length]
          omega
        rw [feedGo_some_open hic hfi, feedGo_some_open hic hfi,
          ih f ⟨st.pending.drop (i + openTag.length), true, []⟩ hlen hlen2]

/-! ### Composition: feeding `a ++ b` equals feeding `a` then `b` -/

/-- Run the `feed` loop with its canonical fuel. -/
def loopRun (st : ParserState) : ParserState × List Char × List (List Char) :=
  feedGo (st.pending.length + 1) st

/-- Append further input to a state's pending buffer. -/
def withPending (st : ParserState) (b : List Char) : ParserState :=
  ⟨st.pending ++ b, st.inCommand, st.commandBuffer⟩

theorem loopRun_mk (p : List Char) (ic : Bool) (cb : List Char) :
    loopRun ⟨p, ic, cb⟩ = feedGo (p.length + 1) ⟨p, ic, cb⟩ := rfl

theorem withPending_mk (p : List Char) (ic : Bool) (cb b : List Char) :
    withPending ⟨p, ic, cb⟩ b = ⟨p ++ b, ic, cb⟩ := rfl

theorem feed_eq_loopRun (st : ParserState) (chunk : List Char) :
    feed st chunk = loopRun (withPending st chunk) := by
  obtain ⟨p, ic, cb⟩ := st
  rw [withPending_mk, loopRun_mk, feed]
  have hl : p.length + chunk.length + 1 = (p ++ chunk).length + 1 := by
    simp
  rw [hl]

theorem firstIdx_after_flush {t p : List Char} (hfi : firstIdx? t p = none)
    (b : List Char) :
    firstIdx? t (p ++ b) =
      (firstIdx? t (p.drop (p.length - longestSuffixPrefixLen p t) ++ b)).map
        (· + (p.length - longestSuffixPrefixLen p t)) := by
  set K := longestSuffixPrefixLen p t with hK
  have hKle : K ≤ min p.length (t.length - 1) := lsp_le_min p t
  set fl := p.length - K with hfl
  have hsplit : p ++ b = p.take fl ++ (p.drop fl ++ b) := by
    rw [← List.append_assoc, List.take_append_drop]
  have hAlen : (p.take fl).length = fl := by
    simp
    omega
  have hpre : ∀ j, j < (p.take fl).length →
      ¬ t <+: (p.take fl ++ (p.drop fl ++ b)).drop j := by
    intro j hj hc
    rw [← hsplit, List.drop_append_of_le_length (by omega)] at hc
    rcases Nat.lt_or_ge (p.drop j).length t.length with hlt | hge
    · -- the whole tail of `p` is a proper prefix of `t`, beating `K`
      have hdl : (p.drop j).length = p.length - j := by simp
      have hx := pre_rev_of_append hc (by omega)
      have hxt : p.drop j = t.take (p.drop j).length :=
        List.prefix_iff_eq_take.1 hx
      have hmax := lsp_maximal p t (k := p.length - j) (by omega) (by omega)
        (by rw [show p.length - (p.length - j) = j by omega, hxt, hdl])
      omega
    · -- a full occurrence of `t` inside `p`, contradicting `none`
      have hdl : (p.drop j).length = p.length - j := by simp
      exact firstIdx_none_not_pre hfi j (pre_of_pre_append_le hc (by omega))
  rw [hsplit, firstIdx_shift hpre, hAlen]

/-- Statement of the loop-composition property: running the loop on
`p ++ b` is the same as running it on `p` and then, from the resulting
state, on the leftover pending plus `b`, concatenating the outputs. -/
def ExtendP (p : List Char) (ic : Bool) (cb b : List Char) : Prop :=
  loopRun ⟨p ++ b, ic, cb⟩ =
    ((loopRun (withPending (loopRun ⟨p, ic, cb⟩).1 b)).1,
     (loopRun ⟨p, ic, cb⟩).2.1 ++ (loopRun (withPending (loopRun ⟨p, ic, cb⟩).1 b)).2.1,
     (loopRun ⟨p, ic, cb⟩).2.2 ++ (loopRun (withPending (loopRun ⟨p, ic, cb⟩).1 b)).2.2)

theorem feedGo_extend : ∀ n : Nat, ∀ p : List Char, ∀ ic : Bool, ∀ cb b : List Char,
    p.length ≤ n → ExtendP p ic cb b := by
  intro n
  induction n using Nat.strong_induction_on with
  | _ n ih =>
  intro p ic cb b hn
  unfold ExtendP
  simp only [withPending]
  cases ic with
  | false =>
    cases hfi : firstIdx? openTag p with
    | some i =>
      have hb9 := firstIdx_bound hfi
      rw [openTag_length] at hb9
      have hfi2 : firstIdx? openTag (p ++ b) = some i := firstIdx_append_some hfi b
      have hdrop : (p ++ b).drop (i + openTag.length) = p.drop (i + openTag.length) ++ b :=
        List.drop_append_of_le_length (by rw [openTag_length]; omega)
      have htake : (p ++ b).take i = p.take i :=
        List.take_append_of_le_length (by omega)
      have hc1 : feedGo (p ++ b).length ⟨p.drop (i + openTag.length) ++ b, true, []⟩ =
          loopRun ⟨p.drop (i + openTag.length) ++ b, true, []⟩ := by
        rw [loopRun_mk]
        exact feedGo_congr _ _ _ (by simp [openTag_length] <;> omega)
          (by simp [openTag_length] <;> omega)
      have hc2 : feedGo p.length ⟨p.drop (i + openTag.length), true, []⟩ =
          loopRun ⟨p.drop (i + openTag.length), true, []⟩ := by
        rw [loopRun_mk]
        exact feedGo_congr _ _ _ (by simp [openTag_length] <;> omega)
          (by simp [openTag_length] <;> omega)
      have hR := loopRun_mk p false cb
      rw [feedGo_some_open rfl hfi] at hR
      dsimp only at hR
      rw [hc2] at hR
      have hL := loopRun_mk (p ++ b) false cb
      rw [feedGo_some_open rfl hfi2] at hL
      dsimp only at hL
      rw [hdrop, htake, hc1] at hL
      rw [hL, hR]
      dsimp only
      have hmlt : (p.drop (i + openTag.length)).length < n := by
        simp [openTag_length]
        omega
      have hIH := ih _ hmlt (p.drop (i + openTag.length)) true [] b (Nat.le_refl _)
      unfold ExtendP at hIH
      simp only [withPending] at hIH
      rw [hIH]
      simp [List.append_assoc]
    | none =>
      have hKle := lsp_le_min p openTag
      rw [openTag_length] at hKle
      have hfi2 := firstIdx_after_flush hfi b
      have hsplitp : p ++ b =
          p.take (p.length - longestSuffixPrefixLen p openTag) ++
            (p.drop (p.length - longestSuffixPrefixLen p openTag) ++ b) := by
        rw [← List.append_assoc, List.take_append_drop]
      have hsuf : p.drop (p.length - longestSuffixPrefixLen p openTag) ++ b <:+ p ++ b :=
        suffix_append_right (List.drop_suffix _ _) b
      have hAlen : (p.take (p.length - longestSuffixPrefixLen p openTag)).length =
          p.length - longestSuffixPrefixLen p openTag := by
        simp
      have hrplen : (p.drop (p.length - longestSuffixPrefixLen p openTag)).length =
          longestSuffixPrefixLen p openTag := by
        simp
        omega
      cases hz : firstIdx? openTag
          (p.drop (p.length - longestSuffixPrefixLen p openTag) ++ b) with
      | none =>
        rw [hz] at hfi2
        simp only [Option.map_none'] at hfi2
        have hlspeq := lsp_extend p b openTag (by rw [openTag_length]; omega)
        have hM3le := lsp_le_min
          (p.drop (p.length - longestSuffixPrefixLen p openTag) ++ b) openTag
        have hdropeq := suffix_drop_eq hsuf
          (l := longestSuffixPrefixLen
            (p.drop (p.length - longestSuffixPrefixLen p openTag) ++ b) openTag)
          (by omega)
        have htkeq : (p ++ b).take ((p ++ b).length -
            longestSuffixPrefixLen
              (p.drop (p.length - longestSuffixPrefixLen p openTag) ++ b) openTag) =
            p.take (p.length - longestSuffixPrefixLen p openTag) ++
              (p.drop (p.length - longestSuffixPrefixLen p openTag) ++ b).take
                ((p.drop (p.length - longestSuffixPrefixLen p openTag) ++ b).length -
                  longestSuffixPrefixLen
                    (p.drop (p.length - longestSuffixPrefixLen p openTag) ++ b) openTag) := by
          have harith : (p ++ b).length -
              longestSuffixPrefixLen
                (p.drop (p.length - longestSuffixPrefixLen p openTag) ++ b) openTag =
              (p.take (p.length - longestSuffixPrefixLen p openTag)).length +
                ((p.drop (p.length - longestSuffixPrefixLen p openTag) ++ b).length -
                  longestSuffixPrefixLen
                    (p.drop (p.length - longestSuffixPrefixLen p openTag) ++ b) openTag) := by
            simp only [List.length_append, hAlen]
            simp only [List.length_append] at hM3le
            rw [hrplen] at hM3le ⊢
            omega
          rw [harith]
          conv_lhs => rw [hsplitp]
          rw [List.take_append]
        have hR := loopRun_mk p false cb
        rw [feedGo_none_open rfl hfi] at hR
        dsimp only at hR
        have hL := loopRun_mk (p ++ b) false cb
        rw [feedGo_none_open rfl hfi2] at hL
        dsimp only at hL
        rw [hlspeq, hdropeq, htkeq] at hL
        rw [hL, hR]
        dsimp only
        have hR2 := loopRun_mk
          (p.drop (p.length - longestSuffixPrefixLen p openTag) ++ b) false cb
        rw [feedGo_none_open rfl hz] at hR2
        dsimp only at hR2
        rw [hR2]
        simp [List.append_assoc]
      | some k =>
        rw [hz] at hfi2
        simp only [Option.map_some'] at hfi2
        have hbk := firstIdx_bound hz
        rw [openTag_length] at hbk
        simp only [List.length_append, hrplen] at hbk
        have hdropeq2 : (p ++ b).drop
            (k + (p.length - longestSuffixPrefixLen p openTag) + openTag.length) =
            (p.drop (p.length - longestSuffixPrefixLen p openTag) ++ b).drop
              (k + openTag.length) := by
          conv_lhs => rw [hsplitp]
          rw [show k + (p.length - longestSuffixPrefixLen p openTag) + openTag.length =
            (p.take (p.length - longestSuffixPrefixLen p openTag)).length +
              (k + openTag.length) by rw [hAlen]; omega]
          rw [List.drop_append]
        have htkeq2 : (p ++ b).take (k + (p.length - longestSuffixPrefixLen p openTag)) =
            p.take (p.length - longestSuffixPrefixLen p openTag) ++
              (p.drop (p.length - longestSuffixPrefixLen p openTag) ++ b).take k := by
          conv_lhs => rw [hsplitp]
          rw [show k + (p.length - longestSuffixPrefixLen p openTag) =
            (p.take (p.length - longestSuffixPrefixLen p openTag)).length + k by
              rw [hAlen]; omega]
          rw [List.take_append]
        have hcfuel : feedGo (p ++ b).length
            ⟨(p.drop (p.length - longestSuffixPrefixLen p openTag) ++ b).drop
              (k + openTag.length), true, []⟩ =
            loopRun
            ⟨(p.drop (p.length - longestSuffixPrefixLen p openTag) ++ b).drop
              (k + openTag.length), true, []⟩ := by
          rw [loopRun_mk]
          apply feedGo_congr
          all_goals simp [openTag_length] <;> omega
        have hcfuel2 : feedGo
            (p.drop (p.length - longestSuffixPrefixLen p openTag) ++ b).length
            ⟨(p.drop (p.length - longestSuffixPrefixLen p openTag) ++ b).drop
              (k + openTag.length), true, []⟩ =
            loopRun
            ⟨(p.drop (p.length - longestSuffixPrefixLen p openTag) ++ b).drop
              (k + openTag.length), true, []⟩ := by
          rw [loopRun_mk]
          apply feedGo_congr
          all_goals simp [openTag_length] <;> omega
        have hR := loopRun_mk p false cb
        rw [feedGo_none_open rfl hfi] at hR
        dsimp only at hR
        have hL := loopRun_mk (p ++ b) false cb
        rw [feedGo_some_open rfl hfi2] at hL
        dsimp only at hL
        rw [hdropeq2, htkeq2, hcfuel] at hL
        rw [hL, hR]
        dsimp only
        have hR2 := loopRun_mk
          (p.drop (p.length - longestSuffixPrefixLen p openTag) ++ b) false cb
        rw [feedGo_some_open rfl hz] at hR2
        dsimp only at hR2
        rw [hcfuel2] at hR2
        rw [hR2]
        simp [List.append_assoc]
  | true =>
    cases hfi : firstIdx? closeTag p with
    | some i =>
      have hb9 := firstIdx_bound hfi
      rw [closeTag_length] at hb9
      have hfi2 : firstIdx? closeTag (p ++ b) = some i := firstIdx_append_some hfi b
      have hdrop : (p ++ b).drop (i + closeTag.length) = p.drop (i + closeTag.length) ++ b :=
        List.drop_append_of_le_length (by rw [closeTag_length]; omega)
      have htake : (p ++ b).take i = p.take i :=
        List.take_append_of_le_length (by omega)
      have hc1 : feedGo (p ++ b).length ⟨p.drop (i + closeTag.length) ++ b, false, []⟩ =
          loopRun ⟨p.drop (i + closeTag.length) ++ b, false, []⟩ := by
        rw [loopRun_mk]
        exact feedGo_congr _ _ _ (by simp [closeTag_length] <;> omega)
          (by simp [closeTag_length] <;> omega)
      have hc2 : feedGo p.length ⟨p.drop (i + closeTag.length), false, []⟩ =
          loopRun ⟨p.drop (i + closeTag.length), false, []⟩ := by
        rw [loopRun_mk]
        exact feedGo_congr _ _ _ (by simp [closeTag_length] <;> omega)
          (by simp [closeTag_length] <;> omega)
      have hR := loopRun_mk p true cb
      rw [feedGo_some_close rfl hfi] at hR
      dsimp only at hR
      rw [hc2] at hR
      have hL := loopRun_mk (p ++ b) true cb
      rw [feedGo_some_close rfl hfi2] at hL
      dsimp only at hL
      rw [hdrop, htake, hc1] at hL
      rw [hL, hR]
      dsimp only
      have hmlt : (p.drop (i + closeTag.length)).length < n := by
        simp [closeTag_length]
        omega
      have hIH := ih _ hmlt (p.drop (i + closeTag.length)) false [] b (Nat.le_refl _)
      unfold ExtendP at hIH
      simp only [withPending] at hIH
      rw [hIH]
      simp [List.append_assoc]
    | none =>
      have hKle := lsp_le_min p closeTag
      rw [closeTag_length] at hKle
      have hfi2 := firstIdx_after_flush hfi b
      have hsplitp : p ++ b =
          p.take (p.length - longestSuffixPrefixLen p closeTag) ++
            (p.drop (p.length - longestSuffixPrefixLen p closeTag) ++ b) := by
        rw [← List.append_assoc, List.take_append_drop]
      have hsuf : p.drop (p.length - longestSuffixPrefixLen p closeTag) ++ b <:+ p ++ b :=
        suffix_append_right (List.drop_suffix _ _) b
      have hAlen : (p.take (p.length - longestSuffixPrefixLen p closeTag)).length =
          p.length - longestSuffixPrefixLen p closeTag := by
        simp
      have hrplen : (p.drop (p.length - longestSuffixPrefixLen p closeTag)).length =
          longestSuffixPrefixLen p closeTag := by
        simp
        omega
      cases hz : firstIdx? closeTag
          (p.drop (p.length - longestSuffixPrefixLen p closeTag) ++ b) with
      | none =>
        rw [hz] at hfi2
        simp only [Option.map_none'] at hfi2
        have hlspeq := lsp_extend p b closeTag (by rw [closeTag_length]; omega)
        have hM3le := lsp_le_min
          (p.drop (p.length - longestSuffixPrefixLen p closeTag) ++ b) closeTag
        have hdropeq := suffix_drop_eq hsuf
          (l := longestSuffixPrefixLen
            (p.drop (p.length - longestSuffixPrefixLen p closeTag) ++ b) closeTag)
          (by omega)
        have htkeq : (p ++ b).take ((p ++ b).length -
            longestSuffixPrefixLen
              (p.drop (p.length - longestSuffixPrefixLen p closeTag) ++ b) closeTag) =
            p.take (p.length - longestSuffixPrefixLen p closeTag) ++
              (p.drop (p.length - longestSuffixPrefixLen p closeTag) ++ b).take
                ((p.drop (p.length - longestSuffixPrefixLen p closeTag) ++ b).length -
                  longestSuffixPrefixLen
                    (p.drop (p.length - longestSuffixPrefixLen p closeTag) ++ b) closeTag) := by
          have harith : (p ++ b).length -
              longestSuffixPrefixLen
                (p.drop (p.length - longestSuffixPrefixLen p closeTag) ++ b) closeTag =
              (p.take (p.length - longestSuffixPrefixLen p closeTag)).length +
                ((p.drop (p.length - longestSuffixPrefixLen p closeTag) ++ b).length -
                  longestSuffixPrefixLen
                    (p.drop (p.length - longestSuffixPrefixLen p closeTag) ++ b) closeTag) := by
            simp only [List.length_append, hAlen]
            simp only [List.length_append] at hM3le
            rw [hrplen] at hM3le ⊢
            omega
          rw [harith]
          conv_lhs => rw [hsplitp]
          rw [List.take_append]
        have hR := loopRun_mk p true cb
        rw [feedGo_none_close rfl hfi] at hR
        dsimp only at hR
        have hL := loopRun_mk (p ++ b) true cb
        rw [feedGo_none_close rfl hfi2] at hL
        dsimp only at hL
        rw [hlspeq, hdropeq, htkeq] at hL
        rw [hL, hR]
        dsimp only
        have hR2 := loopRun_mk
          (p.drop (p.length - longestSuffixPrefixLen p closeTag) ++ b) true
          (cb ++ p.take (p.length - longestSuffixPrefixLen p closeTag))
        rw [feedGo_none_close rfl hz] at hR2
        dsimp only at hR2
        rw [hR2]
        simp [List.append_assoc]
      | some k =>
        rw [hz] at hfi2
        simp only [Option.map_some'] at hfi2
        have hbk := firstIdx_bound hz
        rw [closeTag_length] at hbk
        simp only [List.length_append, hrplen] at hbk
        have hdropeq2 : (p ++ b).drop
            (k + (p.length - longestSuffixPrefixLen p closeTag) + closeTag.length) =
            (p.drop (p.length - longestSuffixPrefixLen p closeTag) ++ b).drop
              (k + closeTag.length) := by
          conv_lhs => rw [hsplitp]
          rw [show k + (p.length - longestSuffixPrefixLen p closeTag) + closeTag.length =
            (p.take (p.length - longestSuffixPrefixLen p closeTag)).length +
              (k + closeTag.length) by rw [hAlen]; omega]
          rw [List.drop_append]
        have htkeq2 : (p ++ b).take (k + (p.length - longestSuffixPrefixLen p closeTag)) =
            p.take (p.length - longestSuffixPrefixLen p closeTag) ++
              (p.drop (p.length - longestSuffixPrefixLen p closeTag) ++ b).take k := by
          conv_lhs => rw [hsplitp]
          rw [show k + (p.length - longestSuffixPrefixLen p closeTag) =
            (p.take (p.length - longestSuffixPrefixLen p closeTag)).length + k by
              rw [hAlen]; omega]
          rw [List.take_append]
        have hcfuel : feedGo (p ++ b).length
            ⟨(p.drop (p.length - longestSuffixPrefixLen p closeTag) ++ b).drop
              (k + closeTag.length), false, []⟩ =
            loopRun
            ⟨(p.drop (p.length - longestSuffixPrefixLen p closeTag) ++ b).drop
              (k + closeTag.length), false, []⟩ := by
          rw [loopRun_mk]
          apply feedGo_congr
          all_goals simp [closeTag_length] <;> omega
        have hcfuel2 : feedGo
            (p.drop (p.length - longestSuffixPrefixLen p closeTag) ++ b).length
            ⟨(p.drop (p.length - longestSuffixPrefixLen p closeTag) ++ b).drop
              (k + closeTag.length), false, []⟩ =
            loopRun
            ⟨(p.drop (p.length - longestSuffixPrefixLen p closeTag) ++ b).drop
              (k + closeTag.length), false, []⟩ := by
          rw [loopRun_mk]
          apply feedGo_congr
          all_goals simp [closeTag_length] <;> omega
        have hR := loopRun_mk p true cb
        rw [feedGo_none_close rfl hfi] at hR
        dsimp only at hR
        have hL := loopRun_mk (p ++ b) true cb
        rw [feedGo_some_close rfl hfi2] at hL
        dsimp only at hL
        rw [hdropeq2, htkeq2, hcfuel] at hL
        rw [hL, hR]
        dsimp only
        have hR2 := loopRun_mk
          (p.drop (p.length - longestSuffixPrefixLen p closeTag) ++ b) true
          (cb ++ p.take (p.length - longestSuffixPrefixLen p closeTag))
        rw [feedGo_some_close rfl hz] at hR2
        dsimp only at hR2
        rw [hcfuel2] at hR2
        rw [hR2]
        simp [List.append_assoc]

theorem feed_append (st : ParserState) (a b : List Char) :
    feed st (a ++ b) =
      ((feed (feed st a).1 b).1,
       (feed st a).2.1 ++ (feed (feed st a).1 b).2.1,
       (feed st a).2.2 ++ (feed (feed st a).1 b).2.2) := by
  obtain ⟨p, ic, cb⟩ := st
  have h := feedGo_extend (p ++ a).length (p ++ a) ic cb b (Nat.le_refl _)
  unfold ExtendP at h
  simp only [feed_eq_loopRun, withPending_mk]
  rw [show p ++ (a ++ b) = (p ++ a) ++ b from (List.append_assoc ..).symm]
  exact h

theorem feedAll_eq_feed_flatten : ∀ (cs : List (List Char)) (st : ParserState),
    cs ≠ [] → feedAll st cs = feed st cs.flatten := by
  intro cs
  induction cs with
  | nil => intro st h; exact absurd rfl h
  | cons c cs ih =>
    intro st _
    cases cs with
    | nil =>
      simp [feedAll, List.flatten]
    | cons d ds =>
      have hne : d :: ds ≠ [] := by simp
      show (let r := feed st c
            let rest := feedAll r.1 (d :: ds)
            (rest.1, r.2.1 ++ rest.2.1, r.2.2 ++ rest.2.2)) = _
      rw [show (c :: d :: ds).flatten = c ++ (d :: ds).flatten from rfl]
      rw [feed_append st c ((d :: ds).flatten)]
      simp only [ih (feed st c).1 hne]

theorem runParser_eq_single (chunks : List (List Char)) :
    runParser chunks = runParser [chunks.flatten] := by
  cases chunks with
  | nil => decide
  | cons c cs =>
    unfold runParser
    rw [feedAll_eq_feed_flatten (c :: cs) initState (by simp),
      feedAll_eq_feed_flatten [(c :: cs).flatten] initState (by simp)]
    simp

/-- C1: for every string and every way of partitioning it into chunks, feeding
the chunks in order to a freshly created command-tag stream parser via `feed`
and then flushing once yields the same total visible output (flush output
included) and the same ordered list of extracted commands as feeding the whole
string as one chunk. -/
theorem C1_chunk_invariance (S : List Char) (chunks : List (List Char))
    (hpart : chunks.flatten = S) :
    runParser chunks = runParser [S] := by
  rw [← hpart]
  exact runParser_eq_single chunks

theorem C1_chunk_invariance_witness :
    (["ab<c".toList, "ommand>x</command> y".toList] : List (List Char)).flatten =
      "ab<command>x</command> y".toList ∧
    runParser ["ab<c".toList, "ommand>x</command> y".toList] =
      runParser ["ab<command>x</command> y".toList] :=
  ⟨by decide, C1_chunk_invariance "ab<command>x</command> y".toList
    ["ab<c".toList, "ommand>x</command> y".toList] (by decide)⟩

/-- C3 counterexample: on the spec's four chunks the code's total visible
output is not `"Here's the command:  done"` — the parser echoes the command
body into the visible stream, so the claimed `(visible, commands)` pair is
refuted. -/
theorem C3_example_counterexample :
    ¬ (runParser ["Here".toList, "\x27s the co".toList, "mmand: <comm".toList,
        "and>ls -la</command> done".toList] =
      ("Here\x27s the command:  done".toList, ["ls -la".toList])) := by
  decide

/-- C3 (amended): feeding the chunks `["Here", "'s the co", "mmand: <comm",
"and>ls -la</command> done"]` in order to a fresh command-tag stream parser
yields concatenated visible output exactly `"Here's the command: ls -la done"`
(the command body is echoed into the visible stream; only the tag literals are
removed) and extracted commands exactly `["ls -la"]`. -/
theorem C3_example_amended :
    runParser ["Here".toList, "\x27s the co".toList, "mmand: <comm".toList,
        "and>ls -la</command> done".toList] =
      ("Here\x27s the command: ls -la done".toList, ["ls -la".toList]) := by
  decide

/-- C4 counterexample: on input `"abc<command>def"` with no closing tag the
code's total visible text after `flush()` is not `"abc<command>def"` — the
body `"def"` is emitted once while streaming and then again by the flush
recovery, so the claimed total is refuted. -/
theorem C4_unterminated_counterexample :
    ¬ (runParser ["abc<command>def".toList] =
      ("abc<command>def".toList, ([] : List (List Char)))) := by
  decide

/-- C4 (amended): feeding `"abc<command>def"` and then flushing yields total
visible text exactly `"abcdef<command>def"` — `"abc"` then the echoed body
`"def"` during `feed`, then `flush` re-emits the raw open literal plus the
buffered body — and zero extracted commands. -/
theorem C4_unterminated_amended :
    runParser ["abc<command>def".toList] =
      ("abcdef<command>def".toList, ([] : List (List Char))) := by
  decide

/-! ### The pending-buffer invariant (no complete tag, partial matches kept) -/

/-- The tag literal the parser is currently scanning for. -/
def soughtTag (st : ParserState) : List Char :=
  if st.inCommand then closeTag else openTag

/-- No suffix of `T` longer than `pend` (up to a proper-prefix length of
`tag`) is a prefix of `tag`: every trailing partial match of `tag` in the
text seen so far is inside `pend`. -/
def SuffCond (tag pend T : List Char) : Prop :=
  ∀ l, pend.length < l → l ≤ T.length → l < tag.length →
    T.drop (T.length - l) ≠ tag.take l

theorem gt_mem_drop_open : ∀ m, m < openTag.length → ('>' : Char) ∈ openTag.drop m := by
  decide

theorem gt_mem_drop_close : ∀ m, m < closeTag.length → ('>' : Char) ∈ closeTag.drop m := by
  decide

theorem gt_not_mem_take_open : ∀ l, l < openTag.length → ('>' : Char) ∉ openTag.take l := by
  decide

theorem gt_not_mem_take_close : ∀ l, l < closeTag.length → ('>' : Char) ∉ closeTag.take l := by
  decide

theorem suffCond_after_tag {w tag pend T : List Char} (hT : T = w ++ tag ++ pend)
    (hgt : ∀ m, m < tag.length → ('>' : Char) ∈ tag.drop m)
    {newTag : List Char}
    (hnew : ∀ l, l < newTag.length → ('>' : Char) ∉ newTag.take l)
    (hlen : newTag.length ≤ tag.length + pend.length + 1) :
    SuffCond newTag pend T := by
  intro l h1 h2 h3 heq
  have hdec : T.drop (T.length - l) =
      tag.drop (tag.length - (l - pend.length)) ++ pend := by
    subst hT
    have hamt : (w ++ tag ++ pend).length - l =
        w.length + (tag.length - (l - pend.length)) := by
      simp
      omega
    rw [hamt, List.append_assoc, List.drop_append,
      List.drop_append_of_le_length (by omega)]
  have hgtmem : ('>' : Char) ∈ T.drop (T.length - l) := by
    rw [hdec]
    exact List.mem_append_left _ (hgt _ (by omega))
  rw [heq] at hgtmem
  exact hnew l h3 hgtmem

theorem suffCond_extend {tag p T : List Char} (c : List Char)
    (h : SuffCond tag p T) : SuffCond tag (p ++ c) (T ++ c) := by
  intro l h1 h2 h3 heq
  simp only [List.length_append] at h1 h2
  have hdec : (T ++ c).drop ((T ++ c).length - l) =
      T.drop (T.length - (l - c.length)) ++ c := by
    have hamt : (T ++ c).length - l = T.length - (l - c.length) := by
      simp
      omega
    rw [hamt]
    exact List.drop_append_of_le_length (by omega)
  rw [hdec] at heq
  have hdl : (T.drop (T.length - (l - c.length))).length = l - c.length := by
    simp
    omega
  have htk : T.drop (T.length - (l - c.length)) = tag.take (l - c.length) := by
    have h1t : (T.drop (T.length - (l - c.length)) ++ c).take (l - c.length) =
        T.drop (T.length - (l - c.length)) := by
      rw [List.take_append_of_le_length (by omega)]
      exact List.take_of_length_le (by omega)
    have h2t : (tag.take l).take (l - c.length) = tag.take (l - c.length) := by
      rw [List.take_take, Nat.min_eq_left (by omega)]
    rw [← h1t, heq, h2t]
  exact h (l - c.length) (by omega) (by omega) (by omega) htk

theorem feedGo_good : ∀ fuel : Nat, ∀ st : ParserState, ∀ T : List Char,
    st.pending.length < fuel →
    st.pending <:+ T →
    SuffCond (soughtTag st) st.pending T →
    ((feedGo fuel st).1.pending <:+ T ∧
     (feedGo fuel st).1.pending <+: soughtTag (feedGo fuel st).1 ∧
     (feedGo fuel st).1.pending.length < (soughtTag (feedGo fuel st).1).length ∧
     SuffCond (soughtTag (feedGo fuel st).1) (feedGo fuel st).1.pending T) := by
  intro fuel
  induction fuel with
  | zero => intro st T h1; omega
  | succ f ih =>
    intro st T h1 hsuf hcond
    obtain ⟨p, ic, cb⟩ := st
    cases ic with
    | false =>
      have hsought : soughtTag ⟨p, false, cb⟩ = openTag := rfl
      cases hfi : firstIdx? openTag p with
      | none =>
        rw [feedGo_none_open rfl hfi]
        dsimp only at h1 hsuf hcond ⊢
        rw [hsought] at hcond
        have hKle := lsp_le_min p openTag
        rw [openTag_length] at hKle
        have hrplen : (p.drop (p.length - longestSuffixPrefixLen p openTag)).length =
            longestSuffixPrefixLen p openTag := by
          simp
          omega
        have hspec := lsp_drop_eq_take p openTag
        refine ⟨(List.drop_suffix _ _).trans hsuf, ?_, ?_, ?_⟩
        · show p.drop (p.length - longestSuffixPrefixLen p openTag) <+: openTag
          rw [hspec]
          exact ⟨openTag.drop (longestSuffixPrefixLen p openTag),
            List.take_append_drop _ _⟩
        · show (p.drop (p.length - longestSuffixPrefixLen p openTag)).length <
            openTag.length
          rw [hrplen, openTag_length]
          omega
        · show SuffCond openTag (p.drop (p.length - longestSuffixPrefixLen p openTag)) T
          intro l hl1 hl2 hl3 heq
          rw [hrplen] at hl1
          rcases Nat.lt_or_ge p.length l with hpl | hpl
          · exact hcond l (by omega) hl2 hl3 heq
          · rw [suffix_drop_eq hsuf (by omega)] at heq
            have := lsp_maximal p openTag (k := l) (by omega) (by omega) heq
            omega
      | some i =>
        have hb9 := firstIdx_bound hfi
        rw [openTag_length] at hb9
        rw [feedGo_some_open rfl hfi]
        dsimp only at h1 hsuf hcond ⊢
        have hdd : (p.drop i).drop openTag.length = p.drop (i + openTag.length) := by
          rw [List.drop_drop]
        obtain ⟨r, hr⟩ := firstIdx_some_pre hfi
        have hrval : r = p.drop (i + openTag.length) := by
          have h0 : (openTag ++ r).drop openTag.length = r := List.drop_left _ _
          rw [hr] at h0
          rw [← h0, List.drop_drop]
        obtain ⟨w0, hw0⟩ := id hsuf
        have hdecomp : T = (w0 ++ p.take i) ++ openTag ++ p.drop (i + openTag.length) := by
          rw [← hw0]
          conv_lhs => rw [← List.take_append_drop i p]
          rw [← hr, hrval]
          simp [List.append_assoc]
        have hcondnew : SuffCond (soughtTag (⟨p.drop (i + openTag.length), true, []⟩ :
            ParserState)) (p.drop (i + openTag.length)) T := by
          show SuffCond closeTag (p.drop (i + openTag.length)) T
          refine suffCond_after_tag hdecomp gt_mem_drop_open gt_not_mem_take_close ?_
          rw [openTag_length, closeTag_length]
          omega
        have hsufnew : p.drop (i + openTag.length) <:+ T :=
          (List.drop_suffix _ _).trans hsuf
        have hlt : (p.drop (i + openTag.length)).length < f := by
          simp [openTag_length]
          omega
        exact ih ⟨p.drop (i + openTag.length), true, []⟩ T hlt hsufnew hcondnew
    | true =>
      have hsought : soughtTag ⟨p, true, cb⟩ = closeTag := rfl
      cases hfi : firstIdx? closeTag p with
      | none =>
        rw [feedGo_none_close rfl hfi]
        dsimp only at h1 hsuf hcond ⊢
        rw [hsought] at hcond
        have hKle := lsp_le_min p closeTag
        rw [closeTag_length] at hKle
        have hrplen : (p.drop (p.length - longestSuffixPrefixLen p closeTag)).length =
            longestSuffixPrefixLen p closeTag := by
          simp
          omega
        have hspec := lsp_drop_eq_take p closeTag
        refine ⟨(List.drop_suffix _ _).trans hsuf, ?_, ?_, ?_⟩
        · show p.drop (p.length - longestSuffixPrefixLen p closeTag) <+: closeTag
          rw [hspec]
          exact ⟨closeTag.drop (longestSuffixPrefixLen p closeTag),
            List.take_append_drop _ _⟩
        · show (p.drop (p.length - longestSuffixPrefixLen p closeTag)).length <
            closeTag.length
          rw [hrplen, closeTag_length]
          omega
        · show SuffCond closeTag (p.drop (p.length - longestSuffixPrefixLen p closeTag)) T
          intro l hl1 hl2 hl3 heq
          rw [hrplen] at hl1
          rcases Nat.lt_or_ge p.length l with hpl | hpl
          · exact hcond l (by omega) hl2 hl3 heq
          · rw [suffix_drop_eq hsuf (by omega)] at heq
            have := lsp_maximal p closeTag (k := l) (by omega) (by omega) heq
            omega
      | some i =>
        have hb9 := firstIdx_bound hfi
        rw [closeTag_length] at hb9
        rw [feedGo_some_close rfl hfi]
        dsimp only at h1 hsuf hcond ⊢
        have hdd : (p.drop i).drop closeTag.length = p.drop (i + closeTag.length) := by
          rw [List.drop_drop]
        obtain ⟨r, hr⟩ := firstIdx_some_pre hfi
        have hrval : r = p.drop (i + closeTag.length) := by
          have h0 : (closeTag ++ r).drop closeTag.length = r := List.drop_left _ _
          rw [hr] at h0
          rw [← h0, List.drop_drop]
        obtain ⟨w0, hw0⟩ := id hsuf
        have hdecomp : T = (w0 ++ p.take i) ++ closeTag ++ p.drop (i + closeTag.length) := by
          rw [← hw0]
          conv_lhs => rw [← List.take_append_drop i p]
          rw [← hr, hrval]
          simp [List.append_assoc]
        have hcondnew : SuffCond (soughtTag (⟨p.drop (i + closeTag.length), false, []⟩ :
            ParserState)) (p.drop (i + closeTag.length)) T := by
          show SuffCond openTag (p.drop (i + closeTag.length)) T
          refine suffCond_after_tag hdecomp gt_mem_drop_close gt_not_mem_take_open ?_
          rw [openTag_length, closeTag_length]
          omega
        have hsufnew : p.drop (i + closeTag.length) <:+ T :=
          (List.drop_suffix _ _).trans hsuf
        have hlt : (p.drop (i + closeTag.length)).length < f := by
          simp [closeTag_length]
          omega
        exact ih ⟨p.drop (i + closeTag.length), false, []⟩ T hlt hsufnew hcondnew

/-- The full invariant tying a parser state to the total text fed so far. -/
def GoodState (st : ParserState) (T : List Char) : Prop :=
  st.pending <:+ T ∧ st.pending <+: soughtTag st ∧
  st.pending.length < (soughtTag st).length ∧ SuffCond (soughtTag st) st.pending T

theorem feed_goodState (st : ParserState) (T c : List Char) (h : GoodState st T) :
    GoodState (feed st c).1 (T ++ c) := by
  obtain ⟨p, ic, cb⟩ := st
  obtain ⟨hsuf, _, _, hcond⟩ := h
  unfold feed GoodState
  exact feedGo_good _ _ _ (by simp) (suffix_append_right hsuf c)
    (suffCond_extend c hcond)

theorem initState_good : GoodState initState [] := by
  refine ⟨⟨[], rfl⟩, ⟨openTag, rfl⟩, by decide, ?_⟩
  intro l h1 h2
  simp [initState] at h1 h2
  omega

theorem feedAll_goodState : ∀ (chunks : List (List Char)) (st : ParserState)
    (T : List Char), GoodState st T →
    GoodState (feedAll st chunks).1 (T ++ chunks.flatten) := by
  intro chunks
  induction chunks with
  | nil =>
    intro st T h
    simpa using h
  | cons c cs ih =>
    intro st T h
    have h2 := ih (feed st c).1 (T ++ c) (feed_goodState st T c h)
    rw [show T ++ (c :: cs).flatten = (T ++ c) ++ cs.flatten by
      simp [List.append_assoc]]
    exact h2

theorem parser_state_good (chunks : List (List Char)) :
    GoodState (feedAll initState chunks).1 chunks.flatten := by
  have h := feedAll_goodState chunks initState [] initState_good
  simpa using h

theorem not_tag_infix_of_proper {pend tag : List Char}
    (htag : tag = openTag ∨ tag = closeTag)
    (hpre : pend <+: tag) (hlen : pend.length < tag.length) :
    ¬ openTag <:+: pend ∧ ¬ closeTag <:+: pend := by
  have hpe : pend = tag.take pend.length := List.prefix_iff_eq_take.1 hpre
  rcases htag with rfl | rfl
  · have hdec : ∀ n, n < openTag.length →
        ¬ openTag <:+: openTag.take n ∧ ¬ closeTag <:+: openTag.take n := by
      decide
    rw [hpe]
    exact hdec pend.length hlen
  · have hdec : ∀ n, n < closeTag.length →
        ¬ openTag <:+: closeTag.take n ∧ ¬ closeTag <:+: closeTag.take n := by
      decide
    rw [hpe]
    exact hdec pend.length hlen

/-- C9: after every sequence of `feed` calls on a fresh command-tag stream
parser, the retained pending buffer contains no complete occurrence of
`<command>` or `</command>` — it is a proper prefix of the tag literal the
parser is currently scanning for — and it is a suffix of the total text fed
so far such that every trailing partial match of the sought tag literal (a
suffix of the text seen so far that is a proper prefix of that literal) lies
inside `pending`, i.e. it was retained rather than emitted as visible
output. -/
theorem C9_pending_invariant (chunks : List (List Char)) :
    ¬ openTag <:+: (feedAll initState chunks).1.pending ∧
    ¬ closeTag <:+: (feedAll initState chunks).1.pending ∧
    (feedAll initState chunks).1.pending <+: soughtTag (feedAll initState chunks).1 ∧
    (feedAll initState chunks).1.pending.length <
      (soughtTag (feedAll initState chunks).1).length ∧
    (feedAll initState chunks).1.pending <:+ chunks.flatten ∧
    SuffCond (soughtTag (feedAll initState chunks).1)
      (feedAll initState chunks).1.pending chunks.flatten := by
  obtain ⟨hs, hp, hl, hc⟩ := parser_state_good chunks
  have htag : soughtTag (feedAll initState chunks).1 = openTag ∨
      soughtTag (feedAll initState chunks).1 = closeTag := by
    cases hic : (feedAll initState chunks).1.inCommand
    · exact Or.inl (by simp [soughtTag, hic])
    · exact Or.inr (by simp [soughtTag, hic])
  obtain ⟨hni1, hni2⟩ := not_tag_infix_of_proper htag hp hl
  exact ⟨hni1, hni2, hp, hl, hs, hc⟩

/-! ### The executable-command heuristic gate (`looksExecutableShellCommand`) -/

/-- Character class of the regex `[a-z0-9_.-]` plus the slash. -/
def isAllowedTokenChar (c : Char) : Bool :=
  ('a' ≤ c && c ≤ 'z') || ('0' ≤ c && c ≤ '9') ||
  c = '_' || c = '.' || c = '/' || c = '-'

/-- Character class of the regex `[A-Z]`. -/
def isUpperAscii (c : Char) : Bool := 'A' ≤ c && c ≤ 'Z'

/-- Character class of the regex `[.!?]`. -/
def isSentencePunct (c : Char) : Bool := c = '.' || c = '!' || c = '?'

/-- The test `/[.!?]$/.test(s)`: the last character is sentence punctuation. -/
def lastIsSentencePunct (s : List Char) : Bool :=
  (s.getLast?.map isSentencePunct).getD false

/-- The two stop-word checks of `looksExecutableShellCommand`, combined. -/
def gateStopWords : List (List Char) :=
  ["i".toList, "you".toList, "please".toList, "check".toList, "visit".toList,
   "try".toList, "consider".toList, "use".toList]

/-- `looksExecutableShellCommand` from maid.ts.  `trimmed.split(/\s+/)[0]`
is the leading run of non-whitespace characters, since `trimmed` has no
leading whitespace; the regex `^[a-z0-9_.-]+$` (slash included) on a string already known
nonempty is the all-characters-in-class check. -/
def looksExecutableShellCommand (command : List Char) : Bool :=
  let trimmed := jsTrim command
  if trimmed = [] then false
  else if trimmed.length > 300 then false
  else if lastIsSentencePunct trimmed then false
  else
    let firstToken := trimmed.takeWhile (fun c => !(isJsWhitespace c))
    if firstToken = [] then false
    else if ¬ (∀ c ∈ firstToken, isAllowedTokenChar c = true) then false
    else if ∃ c ∈ firstToken, isUpperAscii c = true then false
    else if firstToken = "i".toList ∨ firstToken = "you".toList ∨
        firstToken = "please".toList then false
    else if firstToken ∈ ["check".toList, "visit".toList, "try".toList,
        "consider".toList, "use".toList] then false
    else true

/-- Modelled from the claim's words: the gate accepts a string iff its
trimmed form is nonempty, not over-length, does not end in sentence
punctuation, and its first whitespace-delimited token has every character
in `[a-z0-9_.-]` plus the slash, no uppercase letter, and is not a stop-listed word. -/
def gateSpecAccepts (s : List Char) : Prop :=
  jsTrim s ≠ [] ∧ (jsTrim s).length ≤ 300 ∧
  (∀ c, (jsTrim s).getLast? = some c → (c ≠ '.' ∧ c ≠ '!' ∧ c ≠ '?')) ∧
  (∀ c ∈ (jsTrim s).takeWhile (fun c => !(isJsWhitespace c)),
    isAllowedTokenChar c = true) ∧
  (∀ c ∈ (jsTrim s).takeWhile (fun c => !(isJsWhitespace c)),
    isUpperAscii c = false) ∧
  (jsTrim s).takeWhile (fun c => !(isJsWhitespace c)) ∉ gateStopWords

theorem dropWhile_head_false (P : Char → Bool) : ∀ (s : List Char) {x : Char}
    {xs : List Char}, s.dropWhile P = x :: xs → P x = false := by
  intro s
  induction s with
  | nil =>
    intro x xs h
    simp [List.dropWhile] at h
  | cons c s ih =>
    intro x xs h
    rw [List.dropWhile_cons] at h
    split at h
    · exact ih h
    · rename_i hc
      cases h
      simpa using hc

theorem jsTrim_head_not_ws (s : List Char) (h : jsTrim s ≠ []) :
    ∃ x rest, jsTrim s = x :: rest ∧ isJsWhitespace x = false := by
  have hpre : jsTrim s <+: s.dropWhile isJsWhitespace := by
    refine ⟨((s.dropWhile isJsWhitespace).reverse.takeWhile isJsWhitespace).reverse, ?_⟩
    rw [jsTrim, ← List.reverse_append, List.takeWhile_append_dropWhile,
      List.reverse_reverse]
  cases hu : s.dropWhile isJsWhitespace with
  | nil =>
    rw [hu] at hpre
    exact absurd (List.prefix_nil.1 hpre) h
  | cons x xs =>
    have hx : isJsWhitespace x = false := dropWhile_head_false _ s hu
    cases hjt : jsTrim s with
    | nil => exact absurd hjt h
    | cons y ys =>
      rw [hjt, hu] at hpre
      obtain ⟨rfl, -⟩ := (List.cons_prefix_cons).1 hpre
      exact ⟨y, ys, rfl, hx⟩

theorem firstToken_ne_nil (s : List Char) (h : jsTrim s ≠ []) :
    (jsTrim s).takeWhile (fun c => !(isJsWhitespace c)) ≠ [] := by
  obtain ⟨x, rest, heq, hx⟩ := jsTrim_head_not_ws s h
  rw [heq, List.takeWhile_cons, if_pos (by simp [hx])]
  simp

theorem looks_iff_spec (s : List Char) :
    looksExecutableShellCommand s = true ↔ gateSpecAccepts s := by
  unfold looksExecutableShellCommand gateSpecAccepts
  dsimp only
  constructor
  · intro h
    split at h
    · exact absurd h (by simp)
    · split at h
      · exact absurd h (by simp)
      · split at h
        · exact absurd h (by simp)
        · split at h
          · exact absurd h (by simp)
          · split at h
            · exact absurd h (by simp)
            · split at h
              · exact absurd h (by simp)
              · split at h
                · exact absurd h (by simp)
                · split at h
                  · exact absurd h (by simp)
                  · rename_i h1 h2 h3 h4 h5 h6 h7 h8
                    refine ⟨h1, by omega, ?_, by simpa using h5, ?_, ?_⟩
                    · intro c hc
                      simp only [lastIsSentencePunct, hc, Option.map_some',
                        Option.getD_some, isSentencePunct] at h3
                      simp only [Bool.or_eq_true, decide_eq_true_eq] at h3
                      push_neg at h3
                      exact ⟨h3.1.1, h3.1.2, h3.2⟩
                    · intro c hc
                      by_contra hup
                      exact h6 ⟨c, hc, by simpa using hup⟩
                    · intro hmem
                      simp only [gateStopWords, List.mem_cons,
                        List.not_mem_nil, or_false] at hmem
                      rcases hmem with h | h | h | h | h | h | h | h
                      · exact h7 (Or.inl h)
                      · exact h7 (Or.inr (Or.inl h))
                      · exact h7 (Or.inr (Or.inr h))
                      · exact h8 (by simp [h])
                      · exact h8 (by simp [h])
                      · exact h8 (by simp [h])
                      · exact h8 (by simp [h])
                      · exact h8 (by simp [h])
  · rintro ⟨h1, h2, h3, h4, h5, h6⟩
    rw [if_neg h1, if_neg (by omega)]
    rw [if_neg (show ¬ lastIsSentencePunct (jsTrim s) = true from ?_)]
    · rw [if_neg (firstToken_ne_nil s h1)]
      rw [if_neg (by simpa using h4)]
      rw [if_neg (show ¬ ∃ c ∈ (jsTrim s).takeWhile (fun c => !(isJsWhitespace c)),
          isUpperAscii c = true from ?_)]
      · rw [if_neg (show ¬ _ from ?_), if_neg (show ¬ _ from ?_)]
        · intro hmem
          exact h6 (by simp [gateStopWords]; tauto)
        · intro hor
          exact h6 (by simp [gateStopWords]; tauto)
      · rintro ⟨c, hc, hup⟩
        have := h5 c hc
        rw [this] at hup
        exact absurd hup (by simp)
    · intro hpunct
      unfold lastIsSentencePunct at hpunct
      cases hl : (jsTrim s).getLast? with
      | none => rw [hl] at hpunct; simp at hpunct
      | some c =>
        rw [hl] at hpunct
        simp only [Option.map_some', Option.getD_some, isSentencePunct,
          Bool.or_eq_true, decide_eq_true_eq] at hpunct
        obtain ⟨hc1, hc2, hc3⟩ := h3 c hl
        tauto

/-- C7: `looksExecutableShellCommand` returns true exactly when the trimmed
string is nonempty, at most 300 characters, does not end in `.`, `!` or `?`,
and its first whitespace-delimited token consists only of characters in
`[a-z0-9_.-]` plus the slash (hence no uppercase letter) and is not a stop-listed word;
in particular it accepts `"ls -la"` and rejects
`"I think you should check it."` and `"Please run something."`. -/
theorem C7_heuristic_gate :
    (∀ s : List Char, looksExecutableShellCommand s = true ↔ gateSpecAccepts s) ∧
    looksExecutableShellCommand "ls -la".toList = true ∧
    looksExecutableShellCommand "I think you should check it.".toList = false ∧
    looksExecutableShellCommand "Please run something.".toList = false :=
  ⟨looks_iff_spec, by decide, by decide, by decide⟩

/-! ### Anthropic adapter: reasoning-effort to thinking-budget mapping -/

/-- The `ReasoningEffort` enum from src/llm/index.ts. -/
inductive ReasoningEffort where
  | off
  | low
  | medium
  | high
  deriving Repr, DecidableEq

/-- `getThinkingBudget` from src/llm/providers/anthropic.ts (the `default`
branch of the TypeScript switch is unreachable for the four enum values). -/
def getThinkingBudget : ReasoningEffort → Nat
  | .off => 0
  | .low => 5000
  | .medium => 10000
  | .high => 20000

/-- The request parameters assembled by `reasoningStream` in anthropic.ts
that depend on the effort: `max_tokens := Math.max(16000, budget + 6000)`,
and `thinking := {type: "enabled", budget_tokens: budget}` (modelled as
`some budget`) attached only when the effort is not off and the budget is
positive. -/
structure AnthropicRequestParams where
  max_tokens : Nat
  thinking : Option Nat
  deriving Repr, DecidableEq

/-- Request assembly from `reasoningStream` in anthropic.ts. -/
def buildAnthropicRequest (effort : ReasoningEffort) : AnthropicRequestParams :=
  let budgetTokens := getThinkingBudget effort
  { max_tokens := max 16000 (budgetTokens + 6000),
    thinking :=
      if effort ≠ ReasoningEffort.off ∧ budgetTokens > 0 then some budgetTokens
      else none }

/-- C6: the budget-token backend maps effort low/medium/high/off to thinking
budgets 5000/10000/20000/0, and raises the request's max-output-token ceiling
to at least budget+6000 so the final answer cannot be starved; in particular
effort=low yields `budget_tokens = 5000` with `max_tokens ≥ 11000`, and
effort=off attaches no thinking parameter at all. -/
theorem C6_thinking_budget_mapping :
    getThinkingBudget .low = 5000 ∧ getThinkingBudget .medium = 10000 ∧
    getThinkingBudget .high = 20000 ∧ getThinkingBudget .off = 0 ∧
    (∀ e : ReasoningEffort,
      (buildAnthropicRequest e).max_tokens ≥ getThinkingBudget e + 6000) ∧
    (buildAnthropicRequest .low).thinking = some 5000 ∧
    (buildAnthropicRequest .low).max_tokens ≥ 11000 ∧
    (buildAnthropicRequest .off).thinking = none :=
  ⟨rfl, rfl, rfl, rfl, fun e => by cases e <;> decide, by decide, by decide,
    by decide⟩

/-! ### The bounded web-search tool-calling loop
(`streamCustomOpenAICompatibleResponse`, webSearch branch)

The chat-completion transport and the search execution are abstracted as an
environment: `response i` is the payload of the i-th tool-calling request,
`roundSnippets i` the snippets collected while executing that round's tool
calls (`compactWebSnippetFromPayload` results), and `forcedOutcome` the
forced-final request's content (`none` models a thrown request). -/

/-- One entry of `message.tool_calls`. -/
structure ToolCallModel where
  name : List Char
  deriving Repr, DecidableEq

/-- The fields of a chat-completion payload the loop branches on. -/
structure ToolChatResponse where
  toolCalls : List ToolCallModel
  content : List Char

/-- The request-shape facts the claim is about: whether a request carries
tool definitions, and which extra system message it injects. -/
structure ChatRequestBody where
  tools : Option (List (List Char))
  extraSystem : Option (List Char)
  deriving Repr, DecidableEq

/-- A tool-calling round request: carries the `web_search` tool definition. -/
def toolRoundRequest : ChatRequestBody :=
  ⟨some ["web_search".toList], none⟩

/-- The forced-final request: no `tools` key at all, plus the system message
forbidding further tool calls. -/
def forcedFinalRequest : ChatRequestBody :=
  ⟨none,
   some "You must answer now using the provided web search snippets. Do not call tools.".toList⟩

structure ToolLoopEnv where
  response : Nat → ToolChatResponse
  roundSnippets : Nat → List (List Char)
  forcedOutcome : Option (List Char)

/-- The two textual fallbacks used when the forced-final request fails or
returns only whitespace. -/
def snippetFallbackText (snips : List (List Char)) : List Char :=
  if snips = [] then
    "I couldn\x27t complete web search: the model kept requesting tools and no usable results were returned.".toList
  else
    "I couldn\x27t get the model to stop tool-calling, but here are the latest web results I found:\n\n".toList ++
      List.intercalate "\n\n".toList (snips.take 6)

def toolMaxRounds : Nat := 3

/-- The `for (round = 0; round < toolMaxRounds; round++)` loop followed by
the forced-final request and textual fallback, recording each issued
request.  The first component is the list of issued requests; the second the
returned answer string. -/
def toolLoopGo (env : ToolLoopEnv) :
    Nat → Nat → List ChatRequestBody → List (List Char) →
    List ChatRequestBody × List Char
  | 0, _round, reqs, snips =>
    (reqs ++ [forcedFinalRequest],
     match env.forcedOutcome with
     | some c => if jsTrim c = [] then snippetFallbackText snips else c
     | none => snippetFallbackText snips)
  | n + 1, round, reqs, snips =>
    let resp := env.response round
    if resp.toolCalls = [] then (reqs ++ [toolRoundRequest], resp.content)
    else toolLoopGo env n (round + 1) (reqs ++ [toolRoundRequest])
      (snips ++ env.roundSnippets round)

def runToolLoop (env : ToolLoopEnv) : List ChatRequestBody × List Char :=
  toolLoopGo env toolMaxRounds 0 [] []

theorem toolLoopGo_step_tools {env : ToolLoopEnv} {n round : Nat}
    {reqs : List ChatRequestBody} {snips : List (List Char)}
    (h : (env.response round).toolCalls ≠ []) :
    toolLoopGo env (n + 1) round reqs snips =
      toolLoopGo env n (round + 1) (reqs ++ [toolRoundRequest])
        (snips ++ env.roundSnippets round) := by
  simp only [toolLoopGo]
  rw [if_neg h]

theorem jsTrim_nil : jsTrim [] = [] := rfl

theorem snippetFallbackText_ne_nil (snips : List (List Char)) :
    snippetFallbackText snips ≠ [] := by
  unfold snippetFallbackText
  split
  · decide
  · intro hc
    rw [List.append_eq_nil] at hc
    exact absurd hc.1 (by decide)

/-- C2: if every chat-completion response contains at least one tool call,
the web-search loop issues exactly 3 tool-calling requests (hence at most 3)
plus exactly one additional forced-final request, that forced request
carries no tool definitions and injects the system message forbidding
further tool calls, and the loop returns a non-empty string. -/
theorem C2_tool_loop_termination (env : ToolLoopEnv)
    (hall : ∀ i, i < toolMaxRounds → (env.response i).toolCalls ≠ []) :
    ((runToolLoop env).1.filter (fun r => r.tools.isSome)).length = 3 ∧
    ((runToolLoop env).1.filter (fun r => r.tools.isNone)).length = 1 ∧
    (∀ r ∈ (runToolLoop env).1, r.tools = none → r.extraSystem =
      some "You must answer now using the provided web search snippets. Do not call tools.".toList) ∧
    (runToolLoop env).2 ≠ [] := by
  have e0 := hall 0 (by decide)
  have e1 := hall 1 (by decide)
  have e2 := hall 2 (by decide)
  have hrun : runToolLoop env =
      toolLoopGo env 0 3
        ((([] ++ [toolRoundRequest]) ++ [toolRoundRequest]) ++ [toolRoundRequest])
        ((([] ++ env.roundSnippets 0) ++ env.roundSnippets 1) ++
          env.roundSnippets 2) := by
    unfold runToolLoop toolMaxRounds
    rw [show (3 : Nat) = 2 + 1 from rfl, toolLoopGo_step_tools e0]
    rw [show (2 : Nat) = 1 + 1 from rfl, toolLoopGo_step_tools
      (show (env.response (0 + 1)).toolCalls ≠ [] from e1)]
    rw [show (1 : Nat) = 0 + 1 from rfl, toolLoopGo_step_tools
      (show (env.response (0 + 1 + 1)).toolCalls ≠ [] from e2)]
  rw [hrun]
  simp only [toolLoopGo]
  refine ⟨by decide, by decide, by decide, ?_⟩
  dsimp only
  cases hf : env.forcedOutcome with
  | none =>
    dsimp only
    exact snippetFallbackText_ne_nil _
  | some c =>
    dsimp only
    by_cases htrim : jsTrim c = []
    · rw [if_pos htrim]
      exact snippetFallbackText_ne_nil _
    · rw [if_neg htrim]
      intro hc
      rw [hc] at htrim
      exact htrim jsTrim_nil

/-- A concrete environment whose model always asks for a tool call. -/
def c2DemoEnv : ToolLoopEnv :=
  ⟨fun _ => ⟨[⟨"web_search".toList⟩], []⟩, fun _ => [], some "done".toList⟩

theorem C2_tool_loop_termination_witness :
    ((runToolLoop c2DemoEnv).1.filter (fun r => r.tools.isSome)).length = 3 ∧
    ((runToolLoop c2DemoEnv).1.filter (fun r => r.tools.isNone)).length = 1 ∧
    (∀ r ∈ (runToolLoop c2DemoEnv).1, r.tools = none → r.extraSystem =
      some "You must answer now using the provided web search snippets. Do not call tools.".toList) ∧
    (runToolLoop c2DemoEnv).2 ≠ [] :=
  C2_tool_loop_termination c2DemoEnv (by decide)

/-! ### Abort semantics of `streamChatResponse` (part_011)

The network stream is modelled as a finite list of answer deltas followed by
an ending: graceful completion, or a thrown exception carrying a message.
The catch block treats an exception as an abort when `userStopped` is set or
the message matches `/abort/i`; we model the signal-triggered abort by its
exception message. -/

/-- `response.replace(/\r\n/g, "\n")`. -/
def normalizeCRLF : List Char → List Char
  | [] => []
  | '\r' :: '\n' :: rest => '\n' :: normalizeCRLF rest
  | c :: rest => c :: normalizeCRLF rest

def runCommandMarker : List Char := "__RUN_COMMAND__".toList

/-- The `while (lines.length > 0 && last.trim() === "") lines.pop()` loop. -/
def dropTrailingBlankLines (lines : List (List Char)) : List (List Char) :=
  (lines.reverse.dropWhile (fun l => (jsTrim l).isEmpty)).reverse

/-- `stripRunMarker` from part_011: returns `(content, hasMarker)`. -/
def stripRunMarker (response : List Char) : List Char × Bool :=
  let normalized := normalizeCRLF response
  let lines := dropTrailingBlankLines (normalized.splitOn '\n')
  if lines.length < 2 then (response, false)
  else if jsTrim (lines.getLast?.getD []) ≠ runCommandMarker then (response, false)
  else
    let content := List.intercalate ['\n'] lines.dropLast
    ((content.reverse.dropWhile isJsWhitespace).reverse, true)

inductive StreamEnd where
  | completed
  | threw (message : List Char)

/-- The mutable locals of `streamChatResponse` updated by `onAnswerDelta`
(the purely cosmetic terminal-rendering state is not modelled). -/
structure ChatStreamState where
  rawResponse : List Char
  fullResponse : List Char
  taggedCommand : Option (List Char)
  parser : ParserState

def initChatState : ChatStreamState := ⟨[], [], none, initState⟩

/-- `onAnswerDelta`: accumulate the raw delta, feed the tag parser, keep the
last extracted command, append the visible output (appending an empty
visible output is the identity, matching the early return). -/
def processAnswerDelta (st : ChatStreamState) (delta : List Char) : ChatStreamState :=
  let r := feed st.parser delta
  { rawResponse := st.rawResponse ++ delta,
    fullResponse := st.fullResponse ++ r.2.1,
    taggedCommand :=
      match r.2.2.getLast? with
      | some c => some c
      | none => st.taggedCommand,
    parser := r.1 }

/-- The catch block's `/abort/i.test(message)`. -/
def containsAbortInsensitive (msg : List Char) : Bool :=
  (firstIdx? "abort".toList (msg.map Char.toLower)).isSome

/-- How one streaming call settles.  All three constructors are normal
returns of the surrounding function: nothing rethrows past it. -/
inductive ChatOutcome where
  | completed (finalResponse : List Char) (assistantPushed : Option (List Char))
  | stopped (assistantPushed : Option (List Char))
  | errorLogged (message : List Char)
  deriving Repr, DecidableEq

/-- `streamChatResponse` reduced to its answer-accumulation and settle
logic: fold the deltas through `onAnswerDelta`, then either finish
(flush the parser, strip the run marker, push the assistant message) or
hit the catch block, which distinguishes abort from true failure. On abort
the accumulated `fullResponse` — not the raw delivered text — is pushed. -/
def runStreamChat (deltas : List (List Char)) (ending : StreamEnd) : ChatOutcome :=
  let st := deltas.foldl processAnswerDelta initChatState
  match ending with
  | .completed =>
    let full := st.fullResponse ++ (flush st.parser).2
    let cleaned := (stripRunMarker full).1
    .completed cleaned (if cleaned ≠ [] then some cleaned else none)
  | .threw msg =>
    if containsAbortInsensitive msg then
      .stopped (if st.fullResponse ≠ [] then some st.fullResponse else none)
    else
      .errorLogged msg

theorem chatFold_spec : ∀ (deltas : List (List Char)) (st : ChatStreamState),
    (deltas.foldl processAnswerDelta st).fullResponse =
      st.fullResponse ++ (feedAll st.parser deltas).2.1 ∧
    (deltas.foldl processAnswerDelta st).parser = (feedAll st.parser deltas).1 := by
  intro deltas
  induction deltas with
  | nil =>
    intro st
    simp [feedAll]
  | cons d ds ih =>
    intro st
    rw [List.foldl_cons]
    obtain ⟨h1, h2⟩ := ih (processAnswerDelta st d)
    refine ⟨?_, ?_⟩
    · rw [h1]
      show st.fullResponse ++ (feed st.parser d).2.1 ++ _ = _
      rw [List.append_assoc]
      rfl
    · rw [h2]
      rfl

/-- C5 counterexample: with the single delta `"hi <c"` (5 characters
delivered through `onAnswerDelta`) and an abort exception, the call settles
as `stopped` with partial answer `"hi "` — not the 5 delivered characters:
the trailing `"<c"` was held back as a potential tag prefix, so the claim
that exactly the N delivered characters are yielded is refuted. -/
theorem C5_abort_counterexample :
    runStreamChat ["hi <c".toList] (.threw "The operation was aborted".toList) =
      ChatOutcome.stopped (some "hi ".toList) ∧
    "hi ".toList ≠ "hi <c".toList := by
  decide

/-- C5 (amended): when the stream throws an abort-flagged exception
mid-stream, the call settles without propagating the exception — as a
`stopped` outcome, distinguishable from the `errorLogged` outcome of a true
failure — and the preserved partial answer is exactly the concatenation of
the tag parser's visible outputs over the delivered deltas (the delivered
text minus any held-back partial tag suffix and the removed tag literals),
pushed to the conversation when non-empty. -/
theorem C5_abort_settles (deltas : List (List Char)) (msg : List Char)
    (habort : containsAbortInsensitive msg = true) :
    runStreamChat deltas (.threw msg) =
      ChatOutcome.stopped
        (if (feedAll initState deltas).2.1 ≠ []
         then some ((feedAll initState deltas).2.1) else none) ∧
    (∀ msg2, containsAbortInsensitive msg2 = false →
      runStreamChat deltas (.threw msg2) = ChatOutcome.errorLogged msg2) := by
  have hfold := chatFold_spec deltas initChatState
  constructor
  · show (if containsAbortInsensitive msg then _ else _) = _
    rw [if_pos habort]
    rw [show (List.foldl processAnswerDelta initChatState deltas).fullResponse =
      (feedAll initState deltas).2.1 from hfold.1]
  · intro msg2 h2
    show (if containsAbortInsensitive msg2 then _ else _) = _
    rw [if_neg (by simp [h2])]

theorem C5_abort_settles_witness :
    containsAbortInsensitive "abort".toList = true ∧
    (runStreamChat ["hello".toList] (.threw "abort".toList) =
      ChatOutcome.stopped
        (if (feedAll initState ["hello".toList]).2.1 ≠ []
         then some ((feedAll initState ["hello".toList]).2.1) else none) ∧
    (∀ msg2, containsAbortInsensitive msg2 = false →
      runStreamChat ["hello".toList] (.threw msg2) =
        ChatOutcome.errorLogged msg2)) :=
  ⟨by decide, C5_abort_settles ["hello".toList] "abort".toList (by decide)⟩

/-! ### The web-search executor (`fetchSearchResults` / `fetchHtmlSearchResults`)

Network transport, HTML regex matching, entity decoding and URL resolution
are abstracted as an environment; the staging, filtering, capping and
error-tagging logic is translated from the source. -/

inductive FetchOutcome (α : Type) where
  | ok (value : α)
  | httpError (status : Nat)
  | threw (message : List Char)

/-- One entry of the instant-answer `RelatedTopics` flattening: `Text` kept
only when it is a string, `FirstURL` optional. -/
structure InstantItem where
  text : Option (List Char)
  firstURL : Option (List Char)

inductive RelatedTopic where
  | single (item : InstantItem)
  | group (topics : List InstantItem)

structure InstantPayload where
  relatedTopics : List RelatedTopic
  abstractText : Option (List Char)
  heading : Option (List Char)
  abstractURL : Option (List Char)

/-- One `result__a` regex match: capture 1 (href) and capture 2 (title). -/
structure HtmlMatch where
  href : List Char
  rawTitle : List Char

structure SearchEnv where
  instant : FetchOutcome InstantPayload
  htmlPage : FetchOutcome (List HtmlMatch × List (List Char))
  stripHtml : List Char → List Char
  resolveRedirect : List Char → List Char

structure SearchItem where
  title : List Char
  snippet : List Char
  url : Option (List Char)
  deriving Repr, DecidableEq

/-- The returned JSON object's fields. -/
structure SearchPayload where
  query : List Char
  error : Option (List Char)
  results : Option (List SearchItem)
  source : Option (List Char)
  deriving Repr, DecidableEq

/-- `Math.max(1, Math.min(topK || 5, 8))`. -/
def searchLimit (topK : Nat) : Nat :=
  max 1 (min (if topK = 0 then 5 else topK) 8)

/-- `item.Text.split(" - ")[0] || item.Text`. -/
def splitFirstSegTitle (text : List Char) : List Char :=
  match firstIdx? " - ".toList text with
  | some i => if text.take i = [] then text else text.take i
  | none => text

/-- The `for` loop of `fetchHtmlSearchResults` over the capped title
matches, paired positionally with the snippet matches. -/
def buildHtmlItems (env : SearchEnv) :
    List HtmlMatch → List (List Char) → List SearchItem
  | [], _ => []
  | m :: ms, snips =>
    let title := env.stripHtml m.rawTitle
    let snippet := env.stripHtml (snips.headD [])
    let url := env.resolveRedirect m.href
    let rest := buildHtmlItems env ms snips.tail
    if title = [] ∨ url = [] then rest
    else ⟨title, if snippet = [] then title else snippet, some url⟩ :: rest

/-- `fetchHtmlSearchResults`: empty on a non-2xx response. -/
def fetchHtmlSearchResults (env : SearchEnv) (topK : Nat) : List SearchItem :=
  match env.htmlPage with
  | .ok (titles, snippets) =>
    buildHtmlItems env (titles.take (searchLimit topK)) snippets
  | _ => []

/-- `fetchSearchResults`: structured instant-answer stage, HTML-scrape
fallback, error tagging; a thrown fetch at either stage lands in the
enclosing catch and is reported as `search_error:...`. -/
def fetchSearchResults (env : SearchEnv) (query : List Char) (topK : Nat) :
    SearchPayload :=
  let limit := searchLimit topK
  match env.instant with
  | .threw msg => ⟨query, some ("search_error:".toList ++ msg), none, none⟩
  | .httpError status =>
    ⟨query, some ("search_failed:".toList ++ (toString status).toList), none, none⟩
  | .ok payload =>
    let flattened := payload.relatedTopics.flatMap (fun rt =>
      match rt with
      | .group ts => ts
      | .single it => [it])
    let items := ((flattened.filter (fun it => it.text.isSome)).take limit).map
      (fun it =>
        let t := it.text.getD []
        ⟨splitFirstSegTitle t, t, it.firstURL⟩)
    let abstract : List SearchItem :=
      match payload.abstractText with
      | some t =>
        if jsTrim t ≠ [] then
          [⟨(match payload.heading with
             | some h => if h = [] then query else h
             | none => query),
            t,
            (match payload.abstractURL with
             | some u => if u = [] then none else some u
             | none => none)⟩]
        else []
      | none => []
    let instantResults := (abstract ++ items).take limit
    if instantResults ≠ [] then
      ⟨query, none, some instantResults, some "duckduckgo_instant_answer".toList⟩
    else
      match env.htmlPage with
      | .threw msg => ⟨query, some ("search_error:".toList ++ msg), none, none⟩
      | _ =>
        let htmlResults := fetchHtmlSearchResults env limit
        if htmlResults ≠ [] then
          ⟨query, none, some htmlResults, some "duckduckgo_html".toList⟩
        else
          ⟨query, some "no_results".toList, some [], some "duckduckgo_html".toList⟩

theorem buildHtmlItems_length_le (env : SearchEnv) :
    ∀ (ts : List HtmlMatch) (ss : List (List Char)),
    (buildHtmlItems env ts ss).length ≤ ts.length := by
  intro ts
  induction ts with
  | nil => intro ss; simp [buildHtmlItems]
  | cons m ms ih =>
    intro ss
    unfold buildHtmlItems
    dsimp only
    split
    · exact Nat.le_trans (ih ss.tail) (by simp)
    · simp only [List.length_cons]
      exact Nat.succ_le_succ (ih ss.tail)

theorem searchLimit_le_eight (topK : Nat) : searchLimit topK ≤ 8 := by
  unfold searchLimit
  omega

/-- C8: for every environment, query and top_k, the web-search executor
returns a structured payload and never throws: the returned object echoes
the query; any results list it carries has at most 8 items; whenever it
carries no non-empty results list (both stages failed or yielded no usable
items) it carries an error field instead, and an error-tagged payload never
carries usable results. -/
theorem C8_search_executor (env : SearchEnv) (query : List Char) (topK : Nat) :
    (fetchSearchResults env query topK).query = query ∧
    (∀ items, (fetchSearchResults env query topK).results = some items →
      items.length ≤ 8) ∧
    ((fetchSearchResults env query topK).error.isSome ∨
      ∃ items, (fetchSearchResults env query topK).results = some items ∧
        items ≠ []) ∧
    ((fetchSearchResults env query topK).error.isSome →
      ∀ items, (fetchSearchResults env query topK).results = some items →
        items = []) := by
  have hlim := searchLimit_le_eight topK
  unfold fetchSearchResults
  dsimp only
  cases env.instant with
  | threw msg => exact ⟨rfl, by simp, Or.inl (by simp), by simp⟩
  | httpError status => exact ⟨rfl, by simp, Or.inl (by simp), by simp⟩
  | ok payload =>
    dsimp only
    split
    · rename_i hne
      refine ⟨rfl, ?_, Or.inr ⟨_, rfl, hne⟩, by simp⟩
      intro items hit
      obtain rfl := Option.some_inj.mp hit
      exact Nat.le_trans (List.length_take_le _ _) hlim
    · cases hh : env.htmlPage with
      | threw msg => exact ⟨rfl, by simp, Or.inl (by simp), by simp⟩
      | httpError status =>
        dsimp only
        split
        · rename_i hne
          refine ⟨rfl, ?_, Or.inr ⟨_, rfl, hne⟩, by simp⟩
          intro items hit
          obtain rfl := Option.some_inj.mp hit
          unfold fetchHtmlSearchResults
          rw [hh]
          simp
        · refine ⟨rfl, ?_, Or.inl (by simp), ?_⟩
          · intro items hit
            obtain rfl := Option.some_inj.mp hit
            simp
          · intro _ items hit
            exact (Option.some_inj.mp hit).symm
      | ok page =>
        dsimp only
        split
        · rename_i hne
          refine ⟨rfl, ?_, Or.inr ⟨_, rfl, hne⟩, by simp⟩
          intro items hit
          obtain rfl := Option.some_inj.mp hit
          unfold fetchHtmlSearchResults
          rw [hh]
          obtain ⟨titles, snippets⟩ := page
          exact Nat.le_trans (buildHtmlItems_length_le env _ _)
            (Nat.le_trans (List.length_take_le _ _) (searchLimit_le_eight _))
        · refine ⟨rfl, ?_, Or.inl (by simp), ?_⟩
          · intro items hit
            obtain rfl := Option.some_inj.mp hit
            simp
          · intro _ items hit
            exact (Option.some_inj.mp hit).symm

theorem C8_search_executor_witness :
    (fetchSearchResults ⟨.threw "boom".toList, .httpError 500, id, id⟩
        "lean".toList 5).query = "lean".toList ∧
    (∀ items, (fetchSearchResults ⟨.threw "boom".toList, .httpError 500, id, id⟩
        "lean".toList 5).results = some items → items.length ≤ 8) ∧
    ((fetchSearchResults ⟨.threw "boom".toList, .httpError 500, id, id⟩
        "lean".toList 5).error.isSome ∨
      ∃ items, (fetchSearchResults ⟨.threw "boom".toList, .httpError 500, id, id⟩
        "lean".toList 5).results = some items ∧ items ≠ []) ∧
    ((fetchSearchResults ⟨.threw "boom".toList, .httpError 500, id, id⟩
        "lean".toList 5).error.isSome →
      ∀ items, (fetchSearchResults ⟨.threw "boom".toList, .httpError 500, id, id⟩
        "lean".toList 5).results = some items → items = []) :=
  C8_search_executor ⟨.threw "boom".toList, .httpError 500, id, id⟩ "lean".toList 5

/-! ### Last-match selection (streaming parser and `extractRunnableCommand`) -/

/-- A response text made of visible stretches, complete tagged command
regions, and a trailing stretch: `v₀ <command>c₁</command> v₁ … tail`. -/
def interleave : List (List Char × List Char) → List Char → List Char
  | [], tail => tail
  | (v, c) :: rest, tail => v ++ openTag ++ c ++ closeTag ++ interleave rest tail

/-- No nontrivial prefix of `t` is also a suffix of `t`. -/
def SelfOverlapFree (t : List Char) : Prop :=
  ∀ k, k < t.length → 0 < k → t.drop k ≠ t.take (t.length - k)

theorem openTag_sof : SelfOverlapFree openTag := by
  unfold SelfOverlapFree
  decide

theorem closeTag_sof : SelfOverlapFree closeTag := by
  unfold SelfOverlapFree
  decide

theorem no_occ_in_head {t v w : List Char} (hinf : ¬ t <:+: v)
    (hso : SelfOverlapFree t) (hw : t <+: w) :
    ∀ j, j < v.length → ¬ t <+: (v ++ w).drop j := by
  intro j hj hc
  rw [List.drop_append_of_le_length (by omega)] at hc
  have hxlen : (v.drop j).length = v.length - j := by simp
  rcases Nat.lt_or_ge (v.drop j).length t.length with hlt | hge
  · -- `v.drop j` would be a nontrivial prefix and suffix of `t`
    have hx := pre_rev_of_append hc (by omega)
    have ht_take : t = v.drop j ++ w.take (t.length - (v.drop j).length) := by
      have h1 := List.prefix_iff_eq_take.1 hc
      rw [List.take_append_eq_append_take,
        List.take_of_length_le (by omega)] at h1
      exact h1
    have hdropx : t.drop (v.drop j).length = w.take (t.length - (v.drop j).length) := by
      conv_lhs => rw [ht_take]
      rw [List.drop_left]
    have hwt : w.take (t.length - (v.drop j).length) =
        t.take (t.length - (v.drop j).length) := by
      rw [show w.take (t.length - (v.drop j).length) =
        (w.take t.length).take (t.length - (v.drop j).length) from by
          rw [List.take_take, Nat.min_eq_left (by omega)]]
      rw [← List.prefix_iff_eq_take.1 hw]
    exact hso (v.drop j).length (by omega) (by omega) (hdropx.trans hwt)
  · -- `t` occurs entirely inside `v`
    have hin := pre_of_pre_append_le hc (by omega)
    exact hinf (hin.isInfix.trans (List.drop_suffix j v).isInfix)

theorem firstIdx_boundary {t v w : List Char} (hinf : ¬ t <:+: v)
    (hso : SelfOverlapFree t) (hw : t <+: w) :
    firstIdx? t (v ++ w) = some v.length := by
  rw [firstIdx_shift (no_occ_in_head hinf hso hw), firstIdx_of_pre hw]
  simp

theorem firstIdx_none_of_no_occ {t s : List Char} (h : ¬ t <:+: s) :
    firstIdx? t s = none := by
  cases hfi : firstIdx? t s with
  | none => rfl
  | some i =>
    exact absurd ((firstIdx_some_pre hfi).isInfix.trans
      (List.drop_suffix i s).isInfix) h

theorem interleave_cons_assoc (v c tail : List Char)
    (rest : List (List Char × List Char)) :
    interleave ((v, c) :: rest) tail =
      v ++ (openTag ++ (c ++ (closeTag ++ interleave rest tail))) := by
  simp [interleave, List.append_assoc]

theorem interleave_cons_length (v c tail : List Char)
    (rest : List (List Char × List Char)) :
    (interleave ((v, c) :: rest) tail).length =
      v.length + 9 + c.length + 10 + (interleave rest tail).length := by
  rw [interleave_cons_assoc]
  simp [openTag_length, closeTag_length]
  omega

theorem feedGo_commands_structured :
    ∀ (ps : List (List Char × List Char)) (tail : List Char) (fuel : Nat),
    (interleave ps tail).length < fuel →
    (∀ p ∈ ps, ¬ openTag <:+: p.1 ∧ ¬ closeTag <:+: p.2) →
    ¬ openTag <:+: tail →
    (feedGo fuel ⟨interleave ps tail, false, []⟩).2.2 =
      ps.filterMap (fun pc =>
        if jsTrim pc.2 = [] then none else some (jsTrim pc.2)) := by
  intro ps
  induction ps with
  | nil =>
    intro tail fuel hf hps htail
    cases fuel with
    | zero => rfl
    | succ f =>
      rw [show interleave [] tail = tail from rfl]
      rw [feedGo_none_open rfl (firstIdx_none_of_no_occ htail)]
      rfl
  | cons pc rest ih =>
    intro tail fuel hf hps htail
    obtain ⟨v, c⟩ := pc
    have hvinf : ¬ openTag <:+: v := (hps (v, c) (by simp)).1
    have hcinf : ¬ closeTag <:+: c := (hps (v, c) (by simp)).2
    have hlen := interleave_cons_length v c tail rest
    have hopen : firstIdx? openTag
        (v ++ (openTag ++ (c ++ (closeTag ++ interleave rest tail)))) =
        some v.length :=
      firstIdx_boundary hvinf openTag_sof (List.prefix_append _ _)
    have hclose : firstIdx? closeTag (c ++ (closeTag ++ interleave rest tail)) =
        some c.length :=
      firstIdx_boundary hcinf closeTag_sof (List.prefix_append _ _)
    cases fuel with
    | zero => omega
    | succ f =>
      rw [interleave_cons_assoc, feedGo_some_open rfl hopen]
      dsimp only
      have hdrop1 : (v ++ (openTag ++ (c ++ (closeTag ++ interleave rest tail)))).drop
          (v.length + openTag.length) = c ++ (closeTag ++ interleave rest tail) := by
        rw [List.drop_append, List.drop_left]
      rw [hdrop1]
      cases f with
      | zero => omega
      | succ f2 =>
        rw [feedGo_some_close rfl hclose]
        dsimp only
        have hdrop2 : (c ++ (closeTag ++ interleave rest tail)).drop
            (c.length + closeTag.length) = interleave rest tail := by
          rw [List.drop_append, List.drop_left]
        have htake2 : (c ++ (closeTag ++ interleave rest tail)).take c.length = c :=
          List.take_left _ _
        rw [hdrop2, htake2]
        rw [ih tail f2 (by omega) (fun p hp => hps p (by simp [hp])) htail]
        by_cases hjc : jsTrim c = []
        · simp [hjc]
        · simp [hjc]

/-- The capture scan of `matchAll(/<command>([\s\S]*?)<\/command>/g)`: find
an open literal, then the first close literal after it, capture the text
between, continue after the close literal. -/
def tagBodiesGo : Nat → List Char → List (List Char)
  | 0, _ => []
  | fuel + 1, s =>
    match firstIdx? openTag s with
    | none => []
    | some i =>
      let afterOpen := s.drop (i + openTag.length)
      match firstIdx? closeTag afterOpen with
      | none => []
      | some j =>
        afterOpen.take j :: tagBodiesGo fuel (afterOpen.drop (j + closeTag.length))

/-- All bodies captured by the tag regex (each match consumes at least 19
characters, so `s.length` fuel always suffices). -/
def tagMatchBodies (s : List Char) : List (List Char) :=
  tagBodiesGo s.length s

/-- The `<command>` stage of `extractRunnableCommand` (part_011): keep the
last regex capture when its trimmed body is nonempty.  The later
fenced-block and marker-line stages are reached only when this stage
produces nothing and are not modelled. -/
def extractTaggedCommand (response : List Char) : Option (List Char) :=
  let normalized := normalizeCRLF response
  match (tagMatchBodies normalized).getLast? with
  | some lastBody =>
    if jsTrim lastBody ≠ [] then some (jsTrim lastBody) else none
  | none => none

theorem tagBodiesGo_structured :
    ∀ (ps : List (List Char × List Char)) (tail : List Char) (fuel : Nat),
    ps.length ≤ fuel →
    (∀ p ∈ ps, ¬ openTag <:+: p.1 ∧ ¬ closeTag <:+: p.2) →
    ¬ openTag <:+: tail →
    tagBodiesGo fuel (interleave ps tail) = ps.map Prod.snd := by
  intro ps
  induction ps with
  | nil =>
    intro tail fuel hf hps htail
    cases fuel with
    | zero => rfl
    | succ f =>
      show (match firstIdx? openTag (interleave [] tail) with
        | none => []
        | some i => _) = _
      rw [show interleave [] tail = tail from rfl,
        firstIdx_none_of_no_occ htail]
      rfl
  | cons pc rest ih =>
    intro tail fuel hf hps htail
    obtain ⟨v, c⟩ := pc
    have hvinf : ¬ openTag <:+: v := (hps (v, c) (by simp)).1
    have hcinf : ¬ closeTag <:+: c := (hps (v, c) (by simp)).2
    have hopen : firstIdx? openTag
        (v ++ (openTag ++ (c ++ (closeTag ++ interleave rest tail)))) =
        some v.length :=
      firstIdx_boundary hvinf openTag_sof (List.prefix_append _ _)
    have hclose : firstIdx? closeTag (c ++ (closeTag ++ interleave rest tail)) =
        some c.length :=
      firstIdx_boundary hcinf closeTag_sof (List.prefix_append _ _)
    cases fuel with
    | zero => exact absurd hf (by simp)
    | succ f =>
      rw [interleave_cons_assoc]
      show (match firstIdx? openTag
          (v ++ (openTag ++ (c ++ (closeTag ++ interleave rest tail)))) with
        | none => []
        | some i => _) = _
      rw [hopen]
      dsimp only
      have hdrop1 : (v ++ (openTag ++ (c ++ (closeTag ++ interleave rest tail)))).drop
          (v.length + openTag.length) = c ++ (closeTag ++ interleave rest tail) := by
        rw [List.drop_append, List.drop_left]
      rw [hdrop1, hclose]
      dsimp only
      have hdrop2 : (c ++ (closeTag ++ interleave rest tail)).drop
          (c.length + closeTag.length) = interleave rest tail := by
        rw [List.drop_append, List.drop_left]
      have htake2 : (c ++ (closeTag ++ interleave rest tail)).take c.length = c :=
        List.take_left _ _
      rw [hdrop2, htake2,
        ih tail f (by simp at hf; omega)
          (fun p hp => hps p (by simp [hp])) htail]
      rfl

theorem normalizeCRLF_eq_self : ∀ (s : List Char), ('\r' : Char) ∉ s →
    normalizeCRLF s = s := by
  intro s
  induction s with
  | nil => intro; rfl
  | cons c rest ih =>
    intro h
    have hc : c ≠ '\r' := fun hh => h (by simp [hh])
    have hr : ('\r' : Char) ∉ rest := fun hh => h (by simp [hh])
    rw [normalizeCRLF.eq_def]
    split
    · rename_i heq
      exact absurd heq (by simp)
    · rename_i r heq
      obtain ⟨hcc, -⟩ := List.cons.inj heq
      exact absurd hcc hc
    · rename_i c2 r heq
      obtain ⟨h1, h2⟩ := List.cons.inj heq
      rw [← h1, ← h2, ih hr]

theorem filterMap_trims {l : List (List Char × List Char)}
    (h : ∀ p ∈ l, jsTrim p.2 ≠ []) :
    l.filterMap (fun pc => if jsTrim pc.2 = [] then none else some (jsTrim pc.2)) =
      l.map (fun pc => jsTrim pc.2) := by
  induction l with
  | nil => rfl
  | cons pc rest ih =>
    rw [List.filterMap_cons, List.map_cons]
    rw [if_neg (h pc (by simp))]
    rw [ih (fun p hp => h p (by simp [hp]))]

theorem interleave_len_ge (tail : List Char) :
    ∀ (ps : List (List Char × List Char)),
    ps.length ≤ (interleave ps tail).length := by
  intro ps
  induction ps with
  | nil => simp
  | cons pc rest ih =>
    obtain ⟨v, c⟩ := pc
    have := interleave_cons_length v c tail rest
    simp only [List.length_cons]
    omega

/-- C10: when a streamed answer consists of visible stretches and several
complete `<command>...</command>` regions whose trimmed contents are all
non-empty, the command surfaced for execution confirmation is the trimmed
content of the last region: the streaming-parser path (the last entry of
the extracted-commands stream, as kept by `onAnswerDelta`) and the
whole-response regex extraction both select the last match, not the
first. -/
theorem C10_last_region_selected
    (ps : List (List Char × List Char)) (vn cn : List Char) (tail : List Char)
    (hclean : ∀ p ∈ ps ++ [(vn, cn)], ¬ openTag <:+: p.1 ∧ ¬ closeTag <:+: p.2)
    (htail : ¬ openTag <:+: tail)
    (htrims : ∀ p ∈ ps ++ [(vn, cn)], jsTrim p.2 ≠ [])
    (hnocr : ('\r' : Char) ∉ interleave (ps ++ [(vn, cn)]) tail) :
    (∀ chunks : List (List Char), chunks ≠ [] →
      chunks.flatten = interleave (ps ++ [(vn, cn)]) tail →
      ((feedAll initState chunks).2.2).getLast? = some (jsTrim cn)) ∧
    extractTaggedCommand (interleave (ps ++ [(vn, cn)]) tail) = some (jsTrim cn) := by
  have hfeed : (feed initState (interleave (ps ++ [(vn, cn)]) tail)).2.2 =
      (ps ++ [(vn, cn)]).map (fun pc => jsTrim pc.2) := by
    show (feedGo (([] : List Char).length +
        (interleave (ps ++ [(vn, cn)]) tail).length + 1)
        ⟨[] ++ interleave (ps ++ [(vn, cn)]) tail, false, []⟩).2.2 = _
    rw [List.nil_append]
    rw [feedGo_commands_structured (ps ++ [(vn, cn)]) tail _ (by omega)
      hclean htail]
    exact filterMap_trims htrims
  have hcn : jsTrim cn ≠ [] := htrims (vn, cn) (by simp)
  constructor
  · intro chunks hne hflat
    rw [feedAll_eq_feed_flatten chunks initState hne, hflat, hfeed]
    simp
  · unfold extractTaggedCommand
    rw [normalizeCRLF_eq_self _ hnocr]
    dsimp only
    rw [show tagMatchBodies (interleave (ps ++ [(vn, cn)]) tail) =
        (ps ++ [(vn, cn)]).map Prod.snd from
      tagBodiesGo_structured (ps ++ [(vn, cn)]) tail _
        (Nat.le_trans (Nat.le_refl _) (interleave_len_ge tail _)) hclean htail]
    simp [hcn]

theorem C10_last_region_selected_witness :
    ((∀ p ∈ ([("one ".toList, "ls".toList)] ++ [("two ".toList, "pwd".toList)]),
      ¬ openTag <:+: p.1 ∧ ¬ closeTag <:+: p.2) ∧
     ¬ openTag <:+: " done".toList ∧
     (∀ p ∈ ([("one ".toList, "ls".toList)] ++ [("two ".toList, "pwd".toList)]),
      jsTrim p.2 ≠ []) ∧
     ('\r' : Char) ∉ interleave ([("one ".toList, "ls".toList)] ++
       [("two ".toList, "pwd".toList)]) " done".toList) ∧
    ((∀ chunks : List (List Char), chunks ≠ [] →
      chunks.flatten = interleave ([("one ".toList, "ls".toList)] ++
        [("two ".toList, "pwd".toList)]) " done".toList →
      ((feedAll initState chunks).2.2).getLast? = some (jsTrim "pwd".toList)) ∧
    extractTaggedCommand (interleave ([("one ".toList, "ls".toList)] ++
      [("two ".toList, "pwd".toList)]) " done".toList) =
        some (jsTrim "pwd".toList)) :=
  ⟨⟨by decide, by decide, by decide, by decide⟩,
   C10_last_region_selected [("one ".toList, "ls".toList)] "two ".toList
     "pwd".toList " done".toList (by decide) (by decide) (by decide) (by decide)⟩

end Maid
